import Mathlib

/-!
Shallow embedding, in Lean 4, of the constraint-model construction of
`src/shift_model.py` (the shift-scheduling rule-to-constraint compiler).

The Python program builds an OR-Tools CP-SAT model.  The solver itself
is an external capability; here the model a run hands to that solver is
embedded explicitly:

* a variable declaration is an integer domain `[lo, hi]` (a boolean
  variable is the domain `[0, 1]`); a variable is identified by its
  allocation index (the order of the `NewBoolVar` / `NewIntVar` calls);
* a constraint is a linear comparison, a boolean implication, a boolean
  disjunction over literals, or a min/max equality;
* a penalty term is a pair (variable index, weight), standing for the
  Python expression `var * weight` appended to the objective list.

`CpModel.feasible` is the satisfaction semantics: an assignment of
integers to variable indices is feasible when it respects every declared
domain and every posted constraint.  All definitions are executable, so
concrete models can be evaluated by `decide`.

Dates are embedded as integers counting days from 2025-04-10 (the
program's hard-coded schedule start, a Thursday); date parsing itself is
an external collaborator and enters as a `String → Option Date`
parameter where the source calls `datetime.strptime`.
-/

namespace ShiftGen

/-- A calendar day, as a signed day offset from 2025-04-10. -/
abbrev Date := Int

/-- Python's `date.weekday()` (Monday = 0); 2025-04-10 is a Thursday (3). -/
def Date.weekday (d : Date) : Int := (d + 3) % 7

/-- One employee row of `input/employees.csv` after `load_employee_data`
validated the four required columns 職員ID, 職員名, 担当フロア, 常勤/パート.
The optional ステータス column is `none` when absent for the row. -/
structure Employee where
  id : String
  name : String
  floor : String
  employment_type : String
  status : Option String := none
deriving Repr, DecidableEq

/-- An integer decision variable's declared domain (`NewIntVar(lo, hi, _)`;
`NewBoolVar` declares `[0, 1]`). -/
structure VarDecl where
  lo : Int
  hi : Int
deriving Repr, DecidableEq

/-- The domain a `NewBoolVar` call declares. -/
def boolDecl : VarDecl := ⟨0, 1⟩

/-- A linear expression over decision variables: a list of
(coefficient, variable index) terms plus a constant. -/
structure LinExpr where
  terms : List (Int × Nat)
  const : Int
deriving Repr, DecidableEq

/-- The linear expression consisting of a single variable. -/
def varE (v : Nat) : LinExpr := ⟨[(1, v)], 0⟩

/-- A constant linear expression. -/
def constE (c : Int) : LinExpr := ⟨[], c⟩

/-- Python `sum(vars)` over a list of variables. -/
def sumVars (vs : List Nat) : LinExpr := ⟨vs.map (fun v => (1, v)), 0⟩

/-- Python `a - b` on linear expressions. -/
def LinExpr.sub (a b : LinExpr) : LinExpr :=
  ⟨a.terms ++ b.terms.map (fun t => (-t.1, t.2)), a.const - b.const⟩

/-- Value of a linear expression under an assignment of the variables. -/
def LinExpr.eval (a : LinExpr) (σ : Nat → Int) : Int :=
  a.const + (a.terms.map (fun t => t.1 * σ t.2)).sum

/-- Comparison operator of a posted linear constraint. -/
inductive Rel
  | eq
  | le
  | ge
deriving Repr, DecidableEq

/-- A constraint posted on the model.  `lin` is `model.Add(lhs rel rhs)`;
`impl` is `model.AddImplication(a, b)`; `orOf` is `model.AddBoolOr(lits)`
(a literal is a variable index with `true` for the variable itself and
`false` for its `.Not()`); `minEq`/`maxEq` are `model.AddMinEquality` /
`model.AddMaxEquality`. -/
inductive Constr
  | lin (lhs : LinExpr) (r : Rel) (rhs : LinExpr)
  | impl (a b : Nat)
  | orOf (lits : List (Nat × Bool))
  | minEq (t : Nat) (vs : List Nat)
  | maxEq (t : Nat) (vs : List Nat)
deriving Repr, DecidableEq

/-- Truth of one constraint under an assignment. -/
def Constr.check (σ : Nat → Int) : Constr → Bool
  | .lin lhs r rhs =>
      match r with
      | .eq => lhs.eval σ == rhs.eval σ
      | .le => decide (lhs.eval σ ≤ rhs.eval σ)
      | .ge => decide (rhs.eval σ ≤ lhs.eval σ)
  | .impl a b => !(σ a == 1) || (σ b == 1)
  | .orOf lits => lits.any (fun p => if p.2 then σ p.1 == 1 else σ p.1 == 0)
  | .minEq t vs =>
      match vs.map σ with
      | [] => false
      | w :: ws => σ t == ws.foldl min w
  | .maxEq t vs =>
      match vs.map σ with
      | [] => false
      | w :: ws => σ t == ws.foldl max w

/-- A penalty term `var * weight` destined for the minimization objective. -/
abbrev PenaltyTerm := Nat × Int

/-- The assembled model: variable declarations in allocation order, the
posted constraints, and the objective (`some terms` after
`model.Minimize(sum(terms))`, `none` when no objective was set). -/
structure CpModel where
  decls : List VarDecl
  constrs : List Constr
  objective : Option (List PenaltyTerm) := none
deriving Repr, DecidableEq

/-- `model.New{Bool,Int}Var`: appends a declaration, returning the new
model and the fresh variable's index. -/
def CpModel.newVar (m : CpModel) (lo hi : Int) : CpModel × Nat :=
  ({ m with decls := m.decls ++ [⟨lo, hi⟩] }, m.decls.length)

/-- `model.Add` and friends: appends a posted constraint. -/
def CpModel.addC (m : CpModel) (c : Constr) : CpModel :=
  { m with constrs := m.constrs ++ [c] }

/-- An assignment is feasible for the model when every declared variable
is within its domain and every posted constraint holds.  (The objective
does not constrain.) -/
def CpModel.feasible (m : CpModel) (σ : Nat → Int) : Bool :=
  ((List.range m.decls.length).all fun i =>
    decide ((m.decls.getD i ⟨0, 0⟩).lo ≤ σ i) &&
      decide (σ i ≤ (m.decls.getD i ⟨0, 0⟩).hi)) &&
  m.constrs.all (fun c => c.check σ)

/-- Value of the objective under an assignment (0 when none is set). -/
def CpModel.objEval (m : CpModel) (σ : Nat → Int) : Int :=
  ((m.objective.getD []).map (fun t => t.2 * σ t.1)).sum

/-- Index of the boolean variable `x[e_idx, d_idx, s_idx]`:
`build_shift_assignment_model` allocates the variables with `s` innermost,
then `d`, then `e`, over `D` dates and `S` shifts. -/
def varIdx (D S e d s : Nat) : Nat := e * (D * S) + d * S + s

/-- `build_shift_assignment_model(employee_ids, dates, shifts)`: allocates
one boolean variable per (employee, date, shift) triple and posts, for
every employee and date, `sum over shifts == 1`.  `E`, `D`, `S` are the
three list lengths; nothing else of the lists enters the model. -/
def build_shift_assignment_model (E D S : Nat) : CpModel :=
  { decls := List.replicate (E * D * S) boolDecl
    constrs := (List.range E).flatMap fun e => (List.range D).map fun d =>
      Constr.lin (sumVars ((List.range S).map (varIdx D S e d))) .eq (constE 1) }

/- ### Basic facts about the semantics -/

theorem sumVars_eval (vs : List Nat) (σ : Nat → Int) :
    (sumVars vs).eval σ = (vs.map σ).sum := by
  simp [sumVars, LinExpr.eval, List.map_map, Function.comp_def]

theorem feasible_constr {m : CpModel} {σ : Nat → Int} (h : m.feasible σ = true)
    {c : Constr} (hc : c ∈ m.constrs) : c.check σ = true := by
  unfold CpModel.feasible at h
  rw [Bool.and_eq_true] at h
  exact (List.all_eq_true.1 h.2) c hc

theorem feasible_domain {m : CpModel} {σ : Nat → Int} (h : m.feasible σ = true)
    {i : Nat} (hi : i < m.decls.length) :
    (m.decls.getD i ⟨0, 0⟩).lo ≤ σ i ∧ σ i ≤ (m.decls.getD i ⟨0, 0⟩).hi := by
  unfold CpModel.feasible at h
  rw [Bool.and_eq_true] at h
  have := (List.all_eq_true.1 h.1) i (List.mem_range.2 hi)
  rw [Bool.and_eq_true] at this
  exact ⟨of_decide_eq_true this.1, of_decide_eq_true this.2⟩

theorem varIdx_lt {E D S e d s : Nat} (he : e < E) (hd : d < D) (hs : s < S) :
    varIdx D S e d s < E * D * S := by
  have h1 : d * S + s < D * S := by
    calc d * S + s < d * S + S := by omega
    _ = (d + 1) * S := by ring
    _ ≤ D * S := Nat.mul_le_mul_right S hd
  calc e * (D * S) + d * S + s < e * (D * S) + D * S := by omega
  _ = (e + 1) * (D * S) := by ring
  _ ≤ E * (D * S) := Nat.mul_le_mul_right (D * S) he
  _ = E * D * S := by rw [Nat.mul_assoc]

/-- Every base assignment variable is boolean in the built model. -/
theorem build_decl_bool {E D S i : Nat} (hi : i < E * D * S) :
    ((build_shift_assignment_model E D S).decls.getD i ⟨0, 0⟩) = boolDecl := by
  have hlen : (List.replicate (E * D * S) boolDecl).length = E * D * S := by simp
  simp only [build_shift_assignment_model]
  rw [List.getD_eq_getElem?_getD, List.getElem?_eq_getElem (by simpa using hi)]
  simp

/-- In a feasible assignment every base variable takes value 0 or 1. -/
theorem build_var_bool {E D S : Nat} {m : CpModel} {σ : Nat → Int}
    (hdecl : ∀ i < E * D * S,
      (m.decls.getD i ⟨0, 0⟩) = boolDecl ∧ i < m.decls.length)
    (h : m.feasible σ = true) {i : Nat} (hi : i < E * D * S) :
    σ i = 0 ∨ σ i = 1 := by
  obtain ⟨hb, hlt⟩ := hdecl i hi
  have := feasible_domain h hlt
  rw [hb] at this
  simp only [boolDecl] at this
  omega

/-- A list of integers, each between 0 and 1, summing to 1 contains
exactly one entry equal to 1 (stated through an index list and σ). -/
theorem exists_unique_one (ids : List Nat) (σ : Nat → Int)
    (hb : ∀ i ∈ ids, 0 ≤ σ i ∧ σ i ≤ 1) (hs : (ids.map σ).sum = 1) :
    ∃ i ∈ ids, σ i = 1 ∧ ∀ j ∈ ids, σ j = 1 → j = i := by
  induction ids with
  | nil => simp at hs
  | cons a rest ih =>
    have ha := hb a (by simp)
    have hrest : ∀ i ∈ rest, 0 ≤ σ i ∧ σ i ≤ 1 := fun i hi => hb i (by simp [hi])
    have hsum : σ a + (rest.map σ).sum = 1 := by simpa using hs
    have hrest_nonneg : 0 ≤ (rest.map σ).sum :=
      List.sum_nonneg (by
        intro x hx
        obtain ⟨i, hi, rfl⟩ := List.mem_map.1 hx
        exact (hrest i hi).1)
    rcases (by omega : σ a = 1 ∨ σ a = 0) with h1 | h0
    · refine ⟨a, by simp, h1, ?_⟩
      intro j hj hj1
      rcases List.mem_cons.1 hj with rfl | hjr
      · rfl
      · exfalso
        have hz : (rest.map σ).sum = 0 := by omega
        have : σ j ≤ (rest.map σ).sum :=
          List.single_le_sum (fun x hx => by
            obtain ⟨i, hi, rfl⟩ := List.mem_map.1 hx
            exact (hrest i hi).1) _ (List.mem_map.2 ⟨j, hjr, rfl⟩)
        omega
    · have hsum' : (rest.map σ).sum = 1 := by omega
      obtain ⟨i, hi, h1, huniq⟩ := ih hrest hsum'
      refine ⟨i, by simp [hi], h1, ?_⟩
      intro j hj hj1
      rcases List.mem_cons.1 hj with rfl | hjr
      · omega
      · exact huniq j hjr hj1

/-- The coverage constraint for a given (employee, date) is posted. -/
theorem build_coverage_mem {E D S e d : Nat} (he : e < E) (hd : d < D) :
    Constr.lin (sumVars ((List.range S).map (varIdx D S e d))) .eq (constE 1) ∈
      (build_shift_assignment_model E D S).constrs := by
  simp only [build_shift_assignment_model]
  exact List.mem_flatMap.2 ⟨e, List.mem_range.2 he,
    List.mem_map.2 ⟨d, List.mem_range.2 hd, rfl⟩⟩

/-- Semantic core of the coverage invariant, shared by several rule
families: any feasible assignment of any model containing the built
constraints and boolean base declarations selects exactly one shift per
(employee, date). -/
theorem feasible_coverage_unique (E D S : Nat) (m : CpModel) (σ : Nat → Int)
    (hdecls : ∀ i < E * D * S,
      (m.decls.getD i ⟨0, 0⟩) = boolDecl ∧ i < m.decls.length)
    (hconstrs : ∀ c ∈ (build_shift_assignment_model E D S).constrs, c ∈ m.constrs)
    (hfeas : m.feasible σ = true) :
    ∀ e < E, ∀ d < D, ∃ s < S, σ (varIdx D S e d s) = 1 ∧
      ∀ s' < S, σ (varIdx D S e d s') = 1 → s' = s := by
  intro e he d hd
  have hmem := hconstrs _ (build_coverage_mem (S := S) he hd)
  have hchk := feasible_constr hfeas hmem
  have hev : (sumVars ((List.range S).map (varIdx D S e d))).eval σ =
      (constE 1).eval σ := eq_of_beq hchk
  rw [sumVars_eval] at hev
  have hsum : (((List.range S).map (varIdx D S e d)).map σ).sum = 1 := by
    rw [hev]; simp [constE, LinExpr.eval]
  have hb : ∀ i ∈ (List.range S).map (varIdx D S e d), 0 ≤ σ i ∧ σ i ≤ 1 := by
    intro i hi
    obtain ⟨s, hsr, rfl⟩ := List.mem_map.1 hi
    have hs := List.mem_range.1 hsr
    have := build_var_bool (E := E) (D := D) (S := S) hdecls hfeas
      (varIdx_lt he hd hs)
    omega
  obtain ⟨i, hi, h1, huniq⟩ := exists_unique_one _ σ hb hsum
  obtain ⟨s, hsr, rfl⟩ := List.mem_map.1 hi
  refine ⟨s, List.mem_range.1 hsr, h1, ?_⟩
  intro s' hs' h1'
  have : varIdx D S e d s' = varIdx D S e d s :=
    huniq _ (List.mem_map.2 ⟨s', List.mem_range.2 hs', rfl⟩) h1'
  simp only [varIdx] at this
  omega

/-- Claim C1.  `build_shift_assignment_model` posts, for every employee
index `e < E` and date index `d < D`, the hard constraint that the boolean
assignment variables of `(e, d)` over all `S` shift types sum to 1
(first conjunct: the posted constraint list is exactly those E·D
constraints); consequently any assignment feasible for any model whose
declarations extend the built declarations and whose constraints contain
the built constraints — such as the full model after every further rule
compiler ran — gives every (employee, date) pair exactly one shift type
(second conjunct). -/
theorem base_coverage_exactly_one (E D S : Nat) (m : CpModel) (σ : Nat → Int)
    (hdecls : ∀ i < E * D * S,
      (m.decls.getD i ⟨0, 0⟩) = boolDecl ∧ i < m.decls.length)
    (hconstrs : ∀ c ∈ (build_shift_assignment_model E D S).constrs, c ∈ m.constrs)
    (hfeas : m.feasible σ = true) :
    ((build_shift_assignment_model E D S).constrs =
      (List.range E).flatMap (fun e => (List.range D).map fun d =>
        Constr.lin (sumVars ((List.range S).map (varIdx D S e d))) .eq (constE 1))) ∧
    ∀ e < E, ∀ d < D, ∃ s < S, σ (varIdx D S e d s) = 1 ∧
      ∀ s' < S, σ (varIdx D S e d s') = 1 → s' = s :=
  ⟨rfl, feasible_coverage_unique E D S m σ hdecls hconstrs hfeas⟩

/-- A concrete assignment for the coverage witness: shift 0 on every
(employee, date) pair of a 2×2×2 instance. -/
def covAssign : Nat → Int := fun i => if i % 2 = 0 then 1 else 0

/-- Witness for C1 at the concrete instance E = D = S = 2. -/
theorem base_coverage_exactly_one_witness :
    ((build_shift_assignment_model 2 2 2).constrs =
      (List.range 2).flatMap (fun e => (List.range 2).map fun d =>
        Constr.lin (sumVars ((List.range 2).map (varIdx 2 2 e d))) .eq (constE 1))) ∧
    ∀ e < 2, ∀ d < 2, ∃ s < 2, covAssign (varIdx 2 2 e d s) = 1 ∧
      ∀ s' < 2, covAssign (varIdx 2 2 e d s') = 1 → s' = s :=
  base_coverage_exactly_one 2 2 2 (build_shift_assignment_model 2 2 2) covAssign
    (by decide) (fun c hc => hc) (by decide)

/- ### Staffing rules (`add_staffing_constraints`) -/

/-- One `(floor → shift → details)` staffing rule entry.  The field
defaults mirror the `dict.get` defaults of the source; `target` stays an
`Option` because a missing target skips the rule. -/
structure StaffingRule where
  target : Option Int
  constraint_type : String := "hard"
  under_penalty_weight : Int := 0
  over_penalty_weight : Int := 0
deriving Repr, DecidableEq

/-- The 担当フロア of the first employee row whose 職員ID equals `empId`
(the `df.loc[...].iloc[0]` lookup of the source). -/
def floorOfId (emps : List Employee) (empId : String) : Option String :=
  (emps.find? (fun r => r.id == empId)).map (fun r => r.floor)

/-- `floor_employee_indices`: positions of the employees whose looked-up
floor equals `floor`. -/
def floorIndices (emps : List Employee) (floor : String) : List Nat :=
  emps.enum.filterMap fun p =>
    if floorOfId emps p.2.id == some floor then some p.1 else none

/-- `add_staffing_constraints(model, employee_info_df, dates, shifts,
staffing_rules)`.  Iterates dates, then floors, then per-floor shift
rules; skips a floor with no employees and a rule whose shift name is
unknown or whose target is missing; posts an exact-sum equality for a
hard rule and the shortage/excess decomposition for a soft rule,
collecting the positively weighted penalty terms. -/
def add_staffing_constraints (m : CpModel) (emps : List Employee)
    (dates : List Date) (shifts : List String)
    (staffing_rules : List (String × List (String × StaffingRule))) :
    CpModel × List PenaltyTerm :=
  (List.range dates.length).foldl (fun acc d =>
    staffing_rules.foldl (fun acc fr =>
      let cohort := floorIndices emps fr.1
      if cohort.isEmpty then acc
      else
        fr.2.foldl (fun acc sr =>
          match shifts.findIdx? (· == sr.1) with
          | none => acc
          | some s =>
            match sr.2.target with
            | none => acc
            | some target =>
              let currentVars := cohort.map fun e => varIdx dates.length shifts.length e d s
              if sr.2.constraint_type == "hard" then
                (acc.1.addC (Constr.lin (sumVars currentVars) .eq (constE target)), acc.2)
              else if sr.2.constraint_type == "soft" then
                let mv1 := acc.1.newVar 0 target
                let mv2 := mv1.1.newVar 0 ((cohort.length : Int) - target)
                let m3 := mv2.1.addC (Constr.lin
                  ((constE target).sub (sumVars currentVars)) .eq
                  ((varE mv1.2).sub (varE mv2.2)))
                (m3, acc.2 ++
                  ((if sr.2.under_penalty_weight > 0 then
                      [(mv1.2, sr.2.under_penalty_weight)] else []) ++
                    (if sr.2.over_penalty_weight > 0 then
                      [(mv2.2, sr.2.over_penalty_weight)] else [])))
              else acc) acc) acc) (m, [])

theorem varE_eval (v : Nat) (σ : Nat → Int) : (varE v).eval σ = σ v := by
  simp [varE, LinExpr.eval]

theorem constE_eval (c : Int) (σ : Nat → Int) : (constE c).eval σ = c := by
  simp [constE, LinExpr.eval]

theorem sum_map_negated {α : Type} (f : α → Int) (l : List α) :
    (l.map fun x => -(f x)).sum = -((l.map f).sum) := by
  induction l with
  | nil => simp
  | cons a t ih => simp only [List.map_cons, List.sum_cons, ih]; ring

theorem LinExpr.sub_eval (a b : LinExpr) (σ : Nat → Int) :
    (a.sub b).eval σ = a.eval σ - b.eval σ := by
  simp only [LinExpr.sub, LinExpr.eval, List.map_append, List.sum_append,
    List.map_map, Function.comp_def, neg_mul]
  rw [sum_map_negated (fun t => t.1 * σ t.2) b.terms]
  ring

/-- Shape of a single soft staffing rule application (shared by the
soft-encoding and over-target theorems): both auxiliary variables are
allocated, the decomposition equality is posted, and the positively
weighted terms are collected. -/
theorem staffing_soft_single_shape (m : CpModel) (emps : List Employee)
    (dt : Date) (shifts : List String) (floor sname : String)
    (rule : StaffingRule) (T : Int) (s : Nat)
    (hsoft : rule.constraint_type = "soft")
    (hT : rule.target = some T)
    (hs : shifts.findIdx? (· == sname) = some s)
    (hcoh : floorIndices emps floor ≠ []) :
    add_staffing_constraints m emps [dt] shifts [(floor, [(sname, rule)])] =
      ({ decls := m.decls ++ [⟨0, T⟩, ⟨0, (floorIndices emps floor).length - T⟩]
         constrs := m.constrs ++ [Constr.lin
           ((constE T).sub (sumVars ((floorIndices emps floor).map fun e =>
             varIdx 1 shifts.length e 0 s))) .eq
           ((varE m.decls.length).sub (varE (m.decls.length + 1)))]
         objective := m.objective },
       (if rule.under_penalty_weight > 0 then
          [(m.decls.length, rule.under_penalty_weight)] else []) ++
        (if rule.over_penalty_weight > 0 then
          [(m.decls.length + 1, rule.over_penalty_weight)] else [])) := by
  have hne : (floorIndices emps floor).isEmpty = false := by
    cases hfi : floorIndices emps floor with
    | nil => exact absurd hfi hcoh
    | cons a l => rfl
  simp only [add_staffing_constraints, List.length_cons, List.length_nil,
    List.range_succ, List.range_zero, List.foldl_cons, List.foldl_nil,
    List.nil_append, hne, Bool.false_eq_true, if_false, hs, hT, hsoft]
  have hds : ("soft" == "hard") = false := by decide
  simp only [hds, Bool.false_eq_true, if_false, beq_self_eq_true, if_true,
    CpModel.newVar, CpModel.addC, List.append_assoc, List.singleton_append,
    List.length_append, List.length_cons, List.length_nil]

theorem getD_append_fst (l : List VarDecl) (a b d : VarDecl) :
    (l ++ [a, b]).getD l.length d = a := by
  rw [List.getD_eq_getElem?_getD, List.getElem?_append_right (le_refl _)]
  simp

theorem getD_append_snd (l : List VarDecl) (a b d : VarDecl) :
    (l ++ [a, b]).getD (l.length + 1) d = b := by
  rw [List.getD_eq_getElem?_getD, List.getElem?_append_right (by omega)]
  have h1 : l.length + 1 - l.length = 1 := by omega
  rw [h1]
  simp

/-- Claim C2.  A soft staffing rule with target `T` over a floor cohort
of size `C` makes the compiler allocate an integer shortage variable
with domain `[0, T]` and an integer excess variable with domain
`[0, C − T]`, post `T − (sum of the cohort's assignment variables for
the date and shift) == shortage − excess`, and return
`shortage × under_weight` and `excess × over_weight` as penalty terms
exactly for the directions with positive weight (a zero weight
contributes no term); in any feasible assignment the shortage and
excess values respect those domains and realize the decomposition. -/
theorem soft_staffing_encoding (m : CpModel) (emps : List Employee)
    (dt : Date) (shifts : List String) (floor sname : String)
    (rule : StaffingRule) (T : Int) (s : Nat)
    (hsoft : rule.constraint_type = "soft")
    (hT : rule.target = some T)
    (hs : shifts.findIdx? (· == sname) = some s)
    (hcoh : floorIndices emps floor ≠ []) :
    (add_staffing_constraints m emps [dt] shifts [(floor, [(sname, rule)])]).1.decls =
      m.decls ++ [⟨0, T⟩, ⟨0, ((floorIndices emps floor).length : Int) - T⟩] ∧
    (add_staffing_constraints m emps [dt] shifts [(floor, [(sname, rule)])]).1.constrs =
      m.constrs ++ [Constr.lin
        ((constE T).sub (sumVars ((floorIndices emps floor).map fun e =>
          varIdx 1 shifts.length e 0 s))) .eq
        ((varE m.decls.length).sub (varE (m.decls.length + 1)))] ∧
    (add_staffing_constraints m emps [dt] shifts [(floor, [(sname, rule)])]).2 =
      (if rule.under_penalty_weight > 0 then
        [(m.decls.length, rule.under_penalty_weight)] else []) ++
      (if rule.over_penalty_weight > 0 then
        [(m.decls.length + 1, rule.over_penalty_weight)] else []) ∧
    ∀ σ : Nat → Int,
      (add_staffing_constraints m emps [dt] shifts
        [(floor, [(sname, rule)])]).1.feasible σ = true →
      T - (((floorIndices emps floor).map fun e =>
          varIdx 1 shifts.length e 0 s).map σ).sum =
        σ m.decls.length - σ (m.decls.length + 1) ∧
      0 ≤ σ m.decls.length ∧ σ m.decls.length ≤ T ∧
      0 ≤ σ (m.decls.length + 1) ∧
      σ (m.decls.length + 1) ≤ ((floorIndices emps floor).length : Int) - T := by
  have hsh := staffing_soft_single_shape m emps dt shifts floor sname rule T s
    hsoft hT hs hcoh
  have hdeq : (add_staffing_constraints m emps [dt] shifts
      [(floor, [(sname, rule)])]).1.decls =
      m.decls ++ [⟨0, T⟩, ⟨0, ((floorIndices emps floor).length : Int) - T⟩] := by
    rw [hsh]
  have hceq : (add_staffing_constraints m emps [dt] shifts
      [(floor, [(sname, rule)])]).1.constrs =
      m.constrs ++ [Constr.lin
        ((constE T).sub (sumVars ((floorIndices emps floor).map fun e =>
          varIdx 1 shifts.length e 0 s))) .eq
        ((varE m.decls.length).sub (varE (m.decls.length + 1)))] := by
    rw [hsh]
  refine ⟨hdeq, hceq, by rw [hsh], ?_⟩
  intro σ hfeas
  have hc := feasible_constr hfeas (c := Constr.lin
    ((constE T).sub (sumVars ((floorIndices emps floor).map fun e =>
      varIdx 1 shifts.length e 0 s))) .eq
    ((varE m.decls.length).sub (varE (m.decls.length + 1)))) (by rw [hceq]; simp)
  have heq : ((constE T).sub (sumVars ((floorIndices emps floor).map fun e =>
      varIdx 1 shifts.length e 0 s))).eval σ =
      ((varE m.decls.length).sub (varE (m.decls.length + 1))).eval σ :=
    eq_of_beq hc
  rw [LinExpr.sub_eval, LinExpr.sub_eval, constE_eval, sumVars_eval,
    varE_eval, varE_eval] at heq
  have hd1 := feasible_domain hfeas (i := m.decls.length) (by rw [hdeq]; simp)
  have hd2 := feasible_domain hfeas (i := m.decls.length + 1) (by rw [hdeq]; simp)
  rw [hdeq, getD_append_fst] at hd1
  rw [hdeq, getD_append_snd] at hd2
  exact ⟨heq, hd1.1, hd1.2, hd2.1, hd2.2⟩

/-- Witness for C2: one 1F employee, target 1, weights 10 / 1. -/
theorem soft_staffing_encoding_witness :
    (add_staffing_constraints ⟨[], [], none⟩ [⟨"A001", "甲", "1F", "常勤", none⟩]
      [(0 : Date)] ["日勤"] [("1F", [("日勤", ⟨some 1, "soft", 10, 1⟩)])]).1.decls =
      [⟨0, 1⟩, ⟨0, 0⟩] := by
  have h := soft_staffing_encoding ⟨[], [], none⟩ [⟨"A001", "甲", "1F", "常勤", none⟩]
    (0 : Date) ["日勤"] "1F" "日勤" ⟨some 1, "soft", 10, 1⟩ 1 0 rfl rfl
    (by decide) (by decide)
  simpa using h.1

/-- Claim C10.  When a soft staffing rule's target `T` exceeds the floor
cohort size `C`, `add_staffing_constraints` does not skip the rule: it
still allocates both auxiliary variables (the excess one with the empty
declared domain `[0, C − T]`, `C − T < 0`) and posts the decomposition
constraint, so the assembled model admits no assignment at all (the
malformed-variable error surfaces at solve time, the rule is not inert);
with any target satisfying `0 ≤ T' ≤ C` the same rule shape yields only
well-formed domains. -/
theorem soft_staffing_overtarget_invalid (m : CpModel) (emps : List Employee)
    (dt : Date) (shifts : List String) (floor sname : String)
    (rule : StaffingRule) (T : Int) (s : Nat)
    (hsoft : rule.constraint_type = "soft")
    (hT : rule.target = some T)
    (hs : shifts.findIdx? (· == sname) = some s)
    (hcoh : floorIndices emps floor ≠ [])
    (hover : ((floorIndices emps floor).length : Int) < T) :
    (add_staffing_constraints m emps [dt] shifts
      [(floor, [(sname, rule)])]).1.decls.length = m.decls.length + 2 ∧
    (add_staffing_constraints m emps [dt] shifts
      [(floor, [(sname, rule)])]).1.constrs.length = m.constrs.length + 1 ∧
    (add_staffing_constraints m emps [dt] shifts
      [(floor, [(sname, rule)])]).1.decls.getD (m.decls.length + 1) ⟨0, 0⟩ =
      ⟨0, ((floorIndices emps floor).length : Int) - T⟩ ∧
    ((floorIndices emps floor).length : Int) - T < 0 ∧
    (∀ σ : Nat → Int, (add_staffing_constraints m emps [dt] shifts
      [(floor, [(sname, rule)])]).1.feasible σ = false) ∧
    (∀ (rule' : StaffingRule) (T' : Int), rule'.constraint_type = "soft" →
      rule'.target = some T' → 0 ≤ T' →
      T' ≤ ((floorIndices emps floor).length : Int) →
      ∀ dcl ∈ (add_staffing_constraints m emps [dt] shifts
        [(floor, [(sname, rule')])]).1.decls, dcl.lo ≤ dcl.hi ∨ dcl ∈ m.decls) := by
  have hsh := staffing_soft_single_shape m emps dt shifts floor sname rule T s
    hsoft hT hs hcoh
  have hdeq : (add_staffing_constraints m emps [dt] shifts
      [(floor, [(sname, rule)])]).1.decls =
      m.decls ++ [⟨0, T⟩, ⟨0, ((floorIndices emps floor).length : Int) - T⟩] := by
    rw [hsh]
  refine ⟨by rw [hdeq]; simp, by rw [hsh]; simp, by rw [hdeq]; exact getD_append_snd ..,
    by omega, ?_, ?_⟩
  · intro σ
    cases hf : (add_staffing_constraints m emps [dt] shifts
      [(floor, [(sname, rule)])]).1.feasible σ with
    | false => rfl
    | true =>
      exfalso
      have hd2 := feasible_domain hf (i := m.decls.length + 1) (by rw [hdeq]; simp)
      rw [hdeq, getD_append_snd] at hd2
      dsimp only at hd2
      omega
  · intro rule' T' hsoft' hT' hge hle dcl hmem
    have hsh' := staffing_soft_single_shape m emps dt shifts floor sname rule' T' s
      hsoft' hT' hs hcoh
    rw [hsh'] at hmem
    rcases List.mem_append.1 hmem with hm | hm
    · exact Or.inr hm
    · left
      rcases List.mem_cons.1 hm with rfl | hm2
      · exact hge
      · rcases List.mem_cons.1 hm2 with rfl | hm3
        · simpa using by omega
        · simp at hm3

/-- Witness for C10: one 1F employee, target 2 (exceeds the cohort size 1). -/
theorem soft_staffing_overtarget_invalid_witness :
    (add_staffing_constraints ⟨[], [], none⟩ [⟨"A001", "甲", "1F", "常勤", none⟩]
      [(0 : Date)] ["日勤"] [("1F", [("日勤", ⟨some 2, "soft", 10, 1⟩)])]).1.feasible
      (fun _ => 0) = false ∧
    (add_staffing_constraints ⟨[], [], none⟩ [⟨"A001", "甲", "1F", "常勤", none⟩]
      [(0 : Date)] ["日勤"] [("1F", [("日勤", ⟨some 2, "soft", 10, 1⟩)])]).1.decls.length = 2 := by
  have h := soft_staffing_overtarget_invalid ⟨[], [], none⟩
    [⟨"A001", "甲", "1F", "常勤", none⟩] (0 : Date) ["日勤"] "1F" "日勤"
    ⟨some 2, "soft", 10, 1⟩ 2 0 rfl rfl (by decide) (by decide) (by decide)
  exact ⟨h.2.2.2.2.1 _, by simpa using h.1⟩

/- ### Max consecutive workdays (`add_max_consecutive_workdays_constraint`) -/

/-- Configuration of the consecutive-workdays rule; defaults mirror the
source's `dict.get` defaults. -/
structure MaxConsecutiveRule where
  max_days : Option Int
  work_shifts : List String := []
  constraint_type : String := "hard"
  over_penalty_weight : Int := 0
deriving Repr, DecidableEq

/-- `work_shift_indices`: positions in `shifts` of the names listed as
working shifts. -/
def workShiftIndices (shifts work_shift_names : List String) : List Nat :=
  shifts.enum.filterMap fun p =>
    if work_shift_names.contains p.2 then some p.1 else none

/-- `add_max_consecutive_workdays_constraint(model, variables,
employee_ids, dates, shifts, rule_details)`.  Skips the whole rule when
`work_shifts` is empty, `max_days` is missing or non-positive, or no
listed working shift occurs in `shifts`.  Otherwise, for every employee
and every window of `max_days + 1` consecutive dates
(`len(dates) - window_size + 1` windows), hard: posts
`sum(window) ≤ max_days`; soft with positive weight: allocates an excess
variable with domain `[0, window_size − max_days]`, posts
`sum(window) − max_days ≤ excess` and weights it. -/
def add_max_consecutive_workdays_constraint (m : CpModel) (E : Nat)
    (dates : List Date) (shifts : List String) (rule : MaxConsecutiveRule) :
    CpModel × List PenaltyTerm :=
  let D := dates.length
  if rule.work_shifts.isEmpty then (m, [])
  else
    match rule.max_days with
    | none => (m, [])
    | some K =>
      if K ≤ 0 then (m, [])
      else
        let workIdx := workShiftIndices shifts rule.work_shifts
        if workIdx.isEmpty then (m, [])
        else
          -- window_size = K + 1, so D - window_size + 1 windows start at
          -- d = 0, …, D - (K+1); in ℕ that count is D - K.toNat.
          let nw := D - K.toNat
          let window := fun e d => (List.range (K.toNat + 1)).flatMap fun off =>
            workIdx.map fun s => varIdx D shifts.length e (d + off) s
          if rule.constraint_type == "hard" then
            ({ m with constrs := m.constrs ++ ((List.range E).flatMap fun e =>
              (List.range nw).map fun d =>
                Constr.lin (sumVars (window e d)) .le (constE K)) }, [])
          else if rule.constraint_type == "soft" && rule.over_penalty_weight > 0 then
            let base := m.decls.length
            let exIdx := fun e d => base + e * nw + d
            ({ m with
              decls := m.decls ++ (List.range (E * nw)).map
                (fun _ => (⟨0, K + 1 - K⟩ : VarDecl))
              constrs := m.constrs ++ ((List.range E).flatMap fun e =>
                (List.range nw).map fun d =>
                  Constr.lin ((sumVars (window e d)).sub (constE K)) .le
                    (varE (exIdx e d))) },
            (List.range E).flatMap fun e => (List.range nw).map fun d =>
              ((exIdx e d, rule.over_penalty_weight) : PenaltyTerm))
          else (m, [])

theorem workShiftIndices_lt {shifts ws : List String} {s : Nat}
    (h : s ∈ workShiftIndices shifts ws) : s < shifts.length := by
  simp only [workShiftIndices, List.mem_filterMap] at h
  obtain ⟨⟨i, nm⟩, hp, hif⟩ := h
  have hi := (List.mem_enum hp).1
  by_cases hc : ws.contains nm
  · simp only [hc, if_true, Option.some.injEq] at hif
    omega
  · simp only [hc, Bool.false_eq_true, if_false] at hif
    cases hif

theorem map_sum_flatMap {α β : Type} (l : List α) (f : α → List β) (σ : β → Int) :
    ((l.flatMap f).map σ).sum = (l.map fun a => (((f a).map σ).sum)).sum := by
  induction l with
  | nil => simp
  | cons a t ih => simp [List.flatMap_cons, ih]

theorem sum_ge_length (l : List Int) (h : ∀ x ∈ l, 1 ≤ x) :
    (l.length : Int) ≤ l.sum := by
  induction l with
  | nil => simp
  | cons a t ih =>
    simp only [List.length_cons, List.sum_cons]
    have ha := h a (by simp)
    have ht := ih (fun x hx => h x (by simp [hx]))
    push_cast
    omega

theorem length_flatMap_const {β : Type} (n k : Nat) (f : Nat → Nat → β) :
    ((List.range n).flatMap fun e => (List.range k).map fun d => f e d).length
      = n * k := by
  induction n with
  | zero => simp
  | succ n ih =>
    rw [List.range_succ, List.flatMap_append]
    simp [ih, Nat.succ_mul]

theorem max_consecutive_hard_shape (m : CpModel) (E : Nat) (dates : List Date)
    (shifts : List String) (rule : MaxConsecutiveRule) (K : Int)
    (hK : rule.max_days = some K) (hKpos : 0 < K)
    (hw : rule.work_shifts.isEmpty = false)
    (hwi : (workShiftIndices shifts rule.work_shifts).isEmpty = false)
    (hct : rule.constraint_type = "hard") :
    add_max_consecutive_workdays_constraint m E dates shifts rule =
      ({ m with constrs := m.constrs ++ ((List.range E).flatMap fun e =>
        (List.range (dates.length - K.toNat)).map fun d =>
          Constr.lin (sumVars ((List.range (K.toNat + 1)).flatMap fun off =>
            (workShiftIndices shifts rule.work_shifts).map fun s =>
              varIdx dates.length shifts.length e (d + off) s)) .le
            (constE K)) }, []) := by
  unfold add_max_consecutive_workdays_constraint
  rw [hK, hct]
  simp only [hw, Bool.false_eq_true, if_false]
  rw [if_neg (by omega)]
  simp only [hwi, Bool.false_eq_true, if_false, beq_self_eq_true, if_true]

/-- Claim C3.  For a hard max-consecutive-workdays rule with bound
`K > 0` and working shifts present in the shift list, the compiler adds,
for every employee and every one of the `D − K` windows of `K + 1`
consecutive dates, the constraint that the working-shift variables inside
the window sum to at most `K` (first two conjuncts: E·(D−K) constraints
on top of the E·D coverage constraints, one per (employee, window));
consequently, in any feasible assignment of any model containing these
constraints together with the base model's booleans, no employee has
working shifts on `K + 1` consecutive dates anywhere in the horizon. -/
theorem max_consecutive_hard_bound (E : Nat) (dates : List Date)
    (shifts : List String) (rule : MaxConsecutiveRule) (K : Int)
    (M : CpModel) (σ : Nat → Int)
    (hK : rule.max_days = some K) (hKpos : 0 < K)
    (hw : rule.work_shifts.isEmpty = false)
    (hwi : (workShiftIndices shifts rule.work_shifts).isEmpty = false)
    (hct : rule.constraint_type = "hard")
    (hdecls : ∀ i < E * dates.length * shifts.length,
      (M.decls.getD i ⟨0, 0⟩) = boolDecl ∧ i < M.decls.length)
    (hconstrs : ∀ c ∈ (add_max_consecutive_workdays_constraint
      (build_shift_assignment_model E dates.length shifts.length)
      E dates shifts rule).1.constrs, c ∈ M.constrs)
    (hfeas : M.feasible σ = true) :
    (add_max_consecutive_workdays_constraint
      (build_shift_assignment_model E dates.length shifts.length)
      E dates shifts rule).1.constrs.length
      = E * dates.length + E * (dates.length - K.toNat) ∧
    (∀ e < E, ∀ d < dates.length - K.toNat,
      Constr.lin (sumVars ((List.range (K.toNat + 1)).flatMap fun off =>
        (workShiftIndices shifts rule.work_shifts).map fun s =>
          varIdx dates.length shifts.length e (d + off) s)) .le (constE K) ∈
      (add_max_consecutive_workdays_constraint
        (build_shift_assignment_model E dates.length shifts.length)
        E dates shifts rule).1.constrs) ∧
    (∀ e < E, ∀ d, d + K.toNat < dates.length →
      ¬ (∀ off ≤ K.toNat, ∃ s ∈ workShiftIndices shifts rule.work_shifts,
          σ (varIdx dates.length shifts.length e (d + off) s) = 1)) := by
  have hsh := max_consecutive_hard_shape
    (build_shift_assignment_model E dates.length shifts.length)
    E dates shifts rule K hK hKpos hw hwi hct
  have hceq : (add_max_consecutive_workdays_constraint
      (build_shift_assignment_model E dates.length shifts.length)
      E dates shifts rule).1.constrs =
      (build_shift_assignment_model E dates.length shifts.length).constrs ++
      ((List.range E).flatMap fun e =>
        (List.range (dates.length - K.toNat)).map fun d =>
          Constr.lin (sumVars ((List.range (K.toNat + 1)).flatMap fun off =>
            (workShiftIndices shifts rule.work_shifts).map fun s =>
              varIdx dates.length shifts.length e (d + off) s)) .le
            (constE K)) := by rw [hsh]
  refine ⟨?_, ?_, ?_⟩
  · rw [hceq, List.length_append]
    have h1 : (build_shift_assignment_model E dates.length shifts.length).constrs.length
        = E * dates.length := by
      simp only [build_shift_assignment_model]
      exact length_flatMap_const ..
    rw [h1, length_flatMap_const]
  · intro e he d hd
    rw [hceq]
    refine List.mem_append.2 (Or.inr ?_)
    exact List.mem_flatMap.2 ⟨e, List.mem_range.2 he,
      List.mem_map.2 ⟨d, List.mem_range.2 hd, rfl⟩⟩
  · intro e he d hd hall
    have hmem : Constr.lin (sumVars ((List.range (K.toNat + 1)).flatMap fun off =>
        (workShiftIndices shifts rule.work_shifts).map fun s =>
          varIdx dates.length shifts.length e (d + off) s)) .le (constE K) ∈
        M.constrs := by
      refine hconstrs _ ?_
      rw [hceq]
      refine List.mem_append.2 (Or.inr ?_)
      exact List.mem_flatMap.2 ⟨e, List.mem_range.2 he,
        List.mem_map.2 ⟨d, List.mem_range.2 (by omega), rfl⟩⟩
    have hchk := feasible_constr hfeas hmem
    have hle : (sumVars ((List.range (K.toNat + 1)).flatMap fun off =>
        (workShiftIndices shifts rule.work_shifts).map fun s =>
          varIdx dates.length shifts.length e (d + off) s)).eval σ ≤
        (constE K).eval σ := of_decide_eq_true hchk
    rw [sumVars_eval, constE_eval, map_sum_flatMap] at hle
    have hinner : ∀ x ∈ (List.range (K.toNat + 1)).map (fun off =>
        (((workShiftIndices shifts rule.work_shifts).map fun s =>
          varIdx dates.length shifts.length e (d + off) s).map σ).sum), 1 ≤ x := by
      intro x hx
      obtain ⟨off, hoffr, rfl⟩ := List.mem_map.1 hx
      have hoff : off ≤ K.toNat := by
        have := List.mem_range.1 hoffr
        omega
      obtain ⟨s, hsmem, hs1⟩ := hall off hoff
      have hnn : ∀ y ∈ ((workShiftIndices shifts rule.work_shifts).map fun s =>
          varIdx dates.length shifts.length e (d + off) s).map σ, 0 ≤ y := by
        intro y hy
        obtain ⟨v, hv, rfl⟩ := List.mem_map.1 hy
        obtain ⟨s', hs', rfl⟩ := List.mem_map.1 hv
        have hlt := varIdx_lt (E := E) he (by omega : d + off < dates.length)
          (workShiftIndices_lt hs')
        rcases build_var_bool hdecls hfeas hlt with h0 | h1 <;> omega
      have hmm : σ (varIdx dates.length shifts.length e (d + off) s) ∈
          ((workShiftIndices shifts rule.work_shifts).map fun s =>
            varIdx dates.length shifts.length e (d + off) s).map σ :=
        List.mem_map.2 ⟨_, List.mem_map.2 ⟨s, hsmem, rfl⟩, rfl⟩
      have := List.single_le_sum hnn _ hmm
      omega
    have hge := sum_ge_length _ hinner
    rw [List.length_map, List.length_range] at hge
    have hcast : (K.toNat : Int) = K := Int.toNat_of_nonneg (le_of_lt hKpos)
    push_cast at hge
    omega

/-- A concrete feasible assignment for the C3 witness: one employee,
three dates, shifts {work, rest}; work on dates 0 and 2 only. -/
def altAssign : Nat → Int := fun i => if i = 0 ∨ i = 3 ∨ i = 4 then 1 else 0

/-- Witness for C3 at E = 1, D = 3, S = 2, K = 1. -/
theorem max_consecutive_hard_bound_witness :
    (add_max_consecutive_workdays_constraint
      (build_shift_assignment_model 1 3 2) 1 [(0 : Date), 1, 2] ["日勤", "公休"]
      ⟨some 1, ["日勤"], "hard", 0⟩).1.constrs.length = 1 * 3 + 1 * (3 - (1 : Int).toNat) := by
  have h := max_consecutive_hard_bound 1 [(0 : Date), 1, 2] ["日勤", "公休"]
    ⟨some 1, ["日勤"], "hard", 0⟩ 1
    (add_max_consecutive_workdays_constraint
      (build_shift_assignment_model 1 3 2) 1 [(0 : Date), 1, 2] ["日勤", "公休"]
      ⟨some 1, ["日勤"], "hard", 0⟩).1 altAssign
    rfl (by decide) (by decide) (by decide) rfl (by decide) (fun c hc => hc) (by decide)
  exact h.1

/- ### Dependency of a constraint on its mentioned variables -/

/-- The variable indices a constraint mentions. -/
def Constr.vars : Constr → List Nat
  | .lin lhs _ rhs => lhs.terms.map (fun t => t.2) ++ rhs.terms.map (fun t => t.2)
  | .impl a b => [a, b]
  | .orOf lits => lits.map (fun p => p.1)
  | .minEq t vs => t :: vs
  | .maxEq t vs => t :: vs

theorem any_congr {α : Type} (l : List α) (f g : α → Bool)
    (h : ∀ x ∈ l, f x = g x) : l.any f = l.any g := by
  induction l with
  | nil => rfl
  | cons a t ih =>
    simp only [List.any_cons, h a (by simp),
      ih (fun x hx => h x (by simp [hx]))]

theorem LinExpr.eval_congr (a : LinExpr) (σ τ : Nat → Int)
    (h : ∀ t ∈ a.terms, σ t.2 = τ t.2) : a.eval σ = a.eval τ := by
  unfold LinExpr.eval
  congr 1
  apply congrArg
  apply List.map_congr_left
  intro t ht
  rw [h t ht]

/-- A constraint's truth value depends only on the variables it mentions. -/
theorem Constr.check_congr (c : Constr) (σ τ : Nat → Int)
    (h : ∀ v ∈ c.vars, σ v = τ v) : c.check σ = c.check τ := by
  cases c with
  | lin lhs r rhs =>
    have h1 : lhs.eval σ = lhs.eval τ :=
      LinExpr.eval_congr _ _ _ fun t ht => h t.2 (by
        simp only [Constr.vars, List.mem_append, List.mem_map]
        exact Or.inl ⟨t, ht, rfl⟩)
    have h2 : rhs.eval σ = rhs.eval τ :=
      LinExpr.eval_congr _ _ _ fun t ht => h t.2 (by
        simp only [Constr.vars, List.mem_append, List.mem_map]
        exact Or.inr ⟨t, ht, rfl⟩)
    cases r <;> simp [Constr.check, h1, h2]
  | impl a b =>
    simp only [Constr.check, h a (by simp [Constr.vars]),
      h b (by simp [Constr.vars])]
  | orOf lits =>
    simp only [Constr.check]
    exact any_congr _ _ _ fun p hp => by
      rw [h p.1 (by simp only [Constr.vars, List.mem_map]; exact ⟨p, hp, rfl⟩)]
  | minEq t vs =>
    have h1 : vs.map σ = vs.map τ :=
      List.map_congr_left fun v hv => h v (by simp [Constr.vars, hv])
    simp only [Constr.check, h1, h t (by simp [Constr.vars])]
  | maxEq t vs =>
    have h1 : vs.map σ = vs.map τ :=
      List.map_congr_left fun v hv => h v (by simp [Constr.vars, hv])
    simp only [Constr.check, h1, h t (by simp [Constr.vars])]

/-- Updating a variable no constraint of the base model mentions leaves
every base check unchanged. -/
theorem check_update_of_lt (c : Constr) (σ : Nat → Int) (n v : Nat) (x : Int)
    (hm : ∀ w ∈ c.vars, w < n) (hv : n ≤ v) :
    c.check (Function.update σ v x) = c.check σ :=
  Constr.check_congr c _ _ fun w hw =>
    Function.update_noteq (by have := hm w hw; omega) x σ

/-- Every constraint the base model posts mentions only base variables. -/
theorem build_constr_vars_lt (E D S : Nat) :
    ∀ c ∈ (build_shift_assignment_model E D S).constrs,
      ∀ w ∈ c.vars, w < E * D * S := by
  intro c hc w hw
  simp only [build_shift_assignment_model, List.mem_flatMap, List.mem_map,
    List.mem_range] at hc
  obtain ⟨e, he, d, hd, rfl⟩ := hc
  simp only [Constr.vars, sumVars, constE, List.map_map, Function.comp_def,
    List.map_nil, List.append_nil, List.mem_map, List.mem_range] at hw
  obtain ⟨s, hs, rfl⟩ := hw
  exact varIdx_lt he hd hs

theorem feasible_of_parts (m : CpModel) (σ : Nat → Int)
    (hdom : ∀ i < m.decls.length,
      (m.decls.getD i ⟨0, 0⟩).lo ≤ σ i ∧ σ i ≤ (m.decls.getD i ⟨0, 0⟩).hi)
    (hc : ∀ c ∈ m.constrs, c.check σ = true) : m.feasible σ = true := by
  unfold CpModel.feasible
  rw [Bool.and_eq_true]
  refine ⟨List.all_eq_true.2 fun i hi => ?_, List.all_eq_true.2 hc⟩
  have := hdom i (List.mem_range.1 hi)
  rw [Bool.and_eq_true]
  exact ⟨decide_eq_true this.1, decide_eq_true this.2⟩

theorem getD_append_const (l : List VarDecl) (n i : Nat) (a d : VarDecl)
    (hi : i < n) :
    (l ++ (List.range n).map (fun _ => a)).getD (l.length + i) d = a := by
  rw [List.getD_eq_getElem?_getD, List.getElem?_append_right (by omega)]
  have h1 : l.length + i - l.length = i := by omega
  rw [h1, List.getElem?_map, List.getElem?_range hi]
  rfl

theorem pairIdx_inj {k e d e' d' : Nat} (hd : d < k) (hd' : d' < k)
    (h : e * k + d = e' * k + d') : e = e' ∧ d = d' := by
  have h1 : e = e' := by
    by_contra hne
    rcases Nat.lt_or_ge e e' with hlt | hge
    · have h3 : (e + 1) * k ≤ e' * k := Nat.mul_le_mul_right k hlt
      have h4 : (e + 1) * k = e * k + k := by ring
      omega
    · have hgt : e' < e := lt_of_le_of_ne hge fun h' => hne h'.symm
      have h3 : (e' + 1) * k ≤ e * k := Nat.mul_le_mul_right k hgt
      have h4 : (e' + 1) * k = e' * k + k := by ring
      omega
  subst h1
  omega

/- ### Sequential shift pairs (`add_sequential_shift_constraint`) -/

/-- Python falsiness of an optional string field (`if not x`): missing
or empty. -/
def optFalsy : Option String → Bool
  | none => true
  | some s => s.isEmpty

/-- Configuration of the sequential-shift rule. -/
structure SequentialRule where
  previous_shift_name : Option String := none
  next_shift_name : Option String := none
  constraint_type : String := "hard"
  penalty_weight : Int := 0
deriving Repr, DecidableEq

/-- `add_sequential_shift_constraint(model, variables, employee_ids,
dates, shifts, rule_details)`.  Skips the whole rule when either shift
name is missing/empty or not in the shift list.  Otherwise, for every
employee and every adjacent date pair `(d, d+1)`: hard — posts the
implication `previous(d) → next(d+1)`; soft with positive weight —
allocates a boolean violation indicator and posts the disjunction
`¬previous(d) ∨ next(d+1) ∨ violation`, weighting the indicator. -/
def add_sequential_shift_constraint (m : CpModel) (E : Nat)
    (dates : List Date) (shifts : List String) (rule : SequentialRule) :
    CpModel × List PenaltyTerm :=
  let D := dates.length
  if optFalsy rule.previous_shift_name || optFalsy rule.next_shift_name then (m, [])
  else
    match shifts.findIdx? (· == rule.previous_shift_name.getD "") with
    | none => (m, [])
    | some prev =>
      match shifts.findIdx? (· == rule.next_shift_name.getD "") with
      | none => (m, [])
      | some next =>
        if rule.constraint_type == "hard" then
          ({ m with constrs := m.constrs ++ ((List.range E).flatMap fun e =>
            (List.range (D - 1)).map fun d =>
              Constr.impl (varIdx D shifts.length e d prev)
                (varIdx D shifts.length e (d + 1) next)) }, [])
        else if rule.constraint_type == "soft" && decide (0 < rule.penalty_weight) then
          let base := m.decls.length
          let violIdx := fun e d => base + e * (D - 1) + d
          ({ m with
            decls := m.decls ++ (List.range (E * (D - 1))).map (fun _ => boolDecl)
            constrs := m.constrs ++ ((List.range E).flatMap fun e =>
              (List.range (D - 1)).map fun d =>
                Constr.orOf [(varIdx D shifts.length e d prev, false),
                  (varIdx D shifts.length e (d + 1) next, true),
                  (violIdx e d, true)]) },
          (List.range E).flatMap fun e => (List.range (D - 1)).map fun d =>
            ((violIdx e d, rule.penalty_weight) : PenaltyTerm))
        else (m, [])

theorem sequential_hard_shape (m : CpModel) (E : Nat) (dates : List Date)
    (shifts : List String) (rule : SequentialRule) (prev next : Nat)
    (hpf : optFalsy rule.previous_shift_name = false)
    (hnf : optFalsy rule.next_shift_name = false)
    (hprev : shifts.findIdx? (· == rule.previous_shift_name.getD "") = some prev)
    (hnext : shifts.findIdx? (· == rule.next_shift_name.getD "") = some next)
    (hct : rule.constraint_type = "hard") :
    add_sequential_shift_constraint m E dates shifts rule =
      ({ m with constrs := m.constrs ++ ((List.range E).flatMap fun e =>
        (List.range (dates.length - 1)).map fun d =>
          Constr.impl (varIdx dates.length shifts.length e d prev)
            (varIdx dates.length shifts.length e (d + 1) next)) }, []) := by
  unfold add_sequential_shift_constraint
  rw [hprev, hnext, hct]
  simp only [hpf, hnf, Bool.or_self, Bool.false_eq_true, if_false,
    beq_self_eq_true, if_true]

theorem sequential_soft_shape (m : CpModel) (E : Nat) (dates : List Date)
    (shifts : List String) (rule : SequentialRule) (prev next : Nat)
    (hpf : optFalsy rule.previous_shift_name = false)
    (hnf : optFalsy rule.next_shift_name = false)
    (hprev : shifts.findIdx? (· == rule.previous_shift_name.getD "") = some prev)
    (hnext : shifts.findIdx? (· == rule.next_shift_name.getD "") = some next)
    (hct : rule.constraint_type = "soft") (hwpos : 0 < rule.penalty_weight) :
    add_sequential_shift_constraint m E dates shifts rule =
      ({ m with
        decls := m.decls ++ (List.range (E * (dates.length - 1))).map
          (fun _ => boolDecl)
        constrs := m.constrs ++ ((List.range E).flatMap fun e =>
          (List.range (dates.length - 1)).map fun d =>
            Constr.orOf [(varIdx dates.length shifts.length e d prev, false),
              (varIdx dates.length shifts.length e (d + 1) next, true),
              (m.decls.length + e * (dates.length - 1) + d, true)]) },
      (List.range E).flatMap fun e => (List.range (dates.length - 1)).map fun d =>
        ((m.decls.length + e * (dates.length - 1) + d,
          rule.penalty_weight) : PenaltyTerm)) := by
  unfold add_sequential_shift_constraint
  rw [hprev, hnext, hct]
  simp only [hpf, hnf, Bool.or_self, Bool.false_eq_true, if_false,
    beq_self_eq_true, if_true, decide_eq_true hwpos, Bool.and_self]
  rw [if_neg (by decide)]

theorem findIdx?_lt {α : Type} {p : α → Bool} {l : List α} {i : Nat}
    (h : l.findIdx? p = some i) : i < l.length :=
  (List.findIdx?_eq_some_iff_findIdx_eq.1 h).1

/-- Claim C5.  For a soft sequential-shift rule with positive weight,
for every employee and adjacent date pair `(d, d+1)` the compiler
creates a boolean violation indicator and posts the 3-literal
disjunction `¬previous(d) ∨ next(d+1) ∨ violation`.  First conjunct
(soft): in any feasible assignment, previous-on-`d` without
next-on-`d+1` forces the indicator to 1, and no structural constraint
forces it to 0 — overwriting any feasible assignment's indicator with 1
stays feasible, so only objective minimization can drive it down.
Second conjunct (hard variant): the implication `previous(d) → next(d+1)`
is posted instead, so feasibility forces the next shift directly. -/
theorem sequential_soft_violation_indicator (E : Nat) (dates : List Date)
    (shifts : List String) (rule : SequentialRule) (prev next : Nat)
    (σ : Nat → Int)
    (hpf : optFalsy rule.previous_shift_name = false)
    (hnf : optFalsy rule.next_shift_name = false)
    (hprev : shifts.findIdx? (· == rule.previous_shift_name.getD "") = some prev)
    (hnext : shifts.findIdx? (· == rule.next_shift_name.getD "") = some next) :
    (rule.constraint_type = "soft" → 0 < rule.penalty_weight →
      (add_sequential_shift_constraint
        (build_shift_assignment_model E dates.length shifts.length)
        E dates shifts rule).1.feasible σ = true →
      ∀ e < E, ∀ d < dates.length - 1,
        (σ (varIdx dates.length shifts.length e d prev) = 1 →
          σ (varIdx dates.length shifts.length e (d + 1) next) ≠ 1 →
          σ (E * dates.length * shifts.length + e * (dates.length - 1) + d) = 1) ∧
        (add_sequential_shift_constraint
          (build_shift_assignment_model E dates.length shifts.length)
          E dates shifts rule).1.feasible
          (Function.update σ
            (E * dates.length * shifts.length + e * (dates.length - 1) + d) 1)
          = true) ∧
    (rule.constraint_type = "hard" →
      (add_sequential_shift_constraint
        (build_shift_assignment_model E dates.length shifts.length)
        E dates shifts rule).1.feasible σ = true →
      ∀ e < E, ∀ d < dates.length - 1,
        σ (varIdx dates.length shifts.length e d prev) = 1 →
        σ (varIdx dates.length shifts.length e (d + 1) next) = 1) := by
  have hbase : (build_shift_assignment_model E dates.length
      shifts.length).decls.length = E * dates.length * shifts.length := by
    simp [build_shift_assignment_model]
  constructor
  · -- soft branch
    intro hct hw hfeas e he d hd
    have hsh := sequential_soft_shape
      (build_shift_assignment_model E dates.length shifts.length)
      E dates shifts rule prev next hpf hnf hprev hnext hct hw
    have hdeq : (add_sequential_shift_constraint
        (build_shift_assignment_model E dates.length shifts.length)
        E dates shifts rule).1.decls =
        (build_shift_assignment_model E dates.length shifts.length).decls ++
        (List.range (E * (dates.length - 1))).map (fun _ => boolDecl) := by
      rw [hsh]
    have hceq : (add_sequential_shift_constraint
        (build_shift_assignment_model E dates.length shifts.length)
        E dates shifts rule).1.constrs =
        (build_shift_assignment_model E dates.length shifts.length).constrs ++
        ((List.range E).flatMap fun e =>
          (List.range (dates.length - 1)).map fun d =>
            Constr.orOf [(varIdx dates.length shifts.length e d prev, false),
              (varIdx dates.length shifts.length e (d + 1) next, true),
              ((build_shift_assignment_model E dates.length shifts.length).decls.length
                + e * (dates.length - 1) + d, true)]) := by
      rw [hsh]
    have hmem : Constr.orOf [(varIdx dates.length shifts.length e d prev, false),
        (varIdx dates.length shifts.length e (d + 1) next, true),
        ((build_shift_assignment_model E dates.length shifts.length).decls.length
          + e * (dates.length - 1) + d, true)] ∈
        (add_sequential_shift_constraint
          (build_shift_assignment_model E dates.length shifts.length)
          E dates shifts rule).1.constrs := by
      rw [hceq]
      refine List.mem_append.2 (Or.inr ?_)
      exact List.mem_flatMap.2 ⟨e, List.mem_range.2 he,
        List.mem_map.2 ⟨d, List.mem_range.2 hd, rfl⟩⟩
    refine ⟨?_, ?_⟩
    · -- forced-true direction
      intro hp hn
      have hchk := feasible_constr hfeas hmem
      simp only [Constr.check, List.any_cons, List.any_nil, Bool.or_eq_true,
        Bool.or_false] at hchk
      rcases hchk with h1 | h2 | h3
      · rw [hp] at h1; exact absurd (eq_of_beq h1) (by norm_num)
      · exact absurd (eq_of_beq h2) hn
      · rw [hbase] at h3; exact eq_of_beq h3
    · -- flipping the indicator to 1 stays feasible
      rw [← hbase]
      set v := (build_shift_assignment_model E dates.length
        shifts.length).decls.length + e * (dates.length - 1) + d with hv
      have hvge : E * dates.length * shifts.length ≤ v := by
        rw [hv, hbase]; omega
      apply feasible_of_parts
      · intro i hi
        by_cases hiv : i = v
        · subst hiv
          have hgd : ((add_sequential_shift_constraint
              (build_shift_assignment_model E dates.length shifts.length)
              E dates shifts rule).1.decls.getD v ⟨0, 0⟩) = boolDecl := by
            have hlt : e * (dates.length - 1) + d < E * (dates.length - 1) := by
              have h2 : (e + 1) * (dates.length - 1) ≤ E * (dates.length - 1) :=
                Nat.mul_le_mul_right _ he
              have h3 : (e + 1) * (dates.length - 1) =
                  e * (dates.length - 1) + (dates.length - 1) := by ring
              omega
            have hvv : v = (build_shift_assignment_model E dates.length
                shifts.length).decls.length + (e * (dates.length - 1) + d) := by
              rw [hv]; omega
            rw [hdeq, hvv, getD_append_const _ _ _ _ _ hlt]
          rw [hgd, Function.update_same]
          simp [boolDecl]
        · rw [Function.update_noteq hiv]
          exact feasible_domain hfeas hi
      · intro c hc
        rw [hceq] at hc
        rcases List.mem_append.1 hc with hcb | hco
        · have hvars := build_constr_vars_lt E dates.length shifts.length c hcb
          rw [check_update_of_lt c σ (E * dates.length * shifts.length) v 1
            hvars hvge]
          exact feasible_constr hfeas (by rw [hceq]; exact List.mem_append.2 (Or.inl hcb))
        · obtain ⟨e', he'r, hrest⟩ := List.mem_flatMap.1 hco
          obtain ⟨d', hd'r, rfl⟩ := List.mem_map.1 hrest
          have he' := List.mem_range.1 he'r
          have hd' := List.mem_range.1 hd'r
          by_cases hsame : e' = e ∧ d' = d
          · obtain ⟨rfl, rfl⟩ := hsame
            refine List.any_eq_true.2 ⟨((build_shift_assignment_model E dates.length
              shifts.length).decls.length + e' * (dates.length - 1) + d', true),
              by simp, ?_⟩
            simp only [← hv, if_true, Function.update_same]
            rfl
          · have hne3 : (build_shift_assignment_model E dates.length
                shifts.length).decls.length + e' * (dates.length - 1) + d' ≠ v := by
              intro heq
              have : e' * (dates.length - 1) + d' = e * (dates.length - 1) + d := by
                rw [hv] at heq; omega
              exact hsame (pairIdx_inj hd' hd this)
            have hcch : (Constr.orOf
                [(varIdx dates.length shifts.length e' d' prev, false),
                 (varIdx dates.length shifts.length e' (d' + 1) next, true),
                 ((build_shift_assignment_model E dates.length
                   shifts.length).decls.length + e' * (dates.length - 1) + d',
                   true)]).check (Function.update σ v 1) = (Constr.orOf
                [(varIdx dates.length shifts.length e' d' prev, false),
                 (varIdx dates.length shifts.length e' (d' + 1) next, true),
                 ((build_shift_assignment_model E dates.length
                   shifts.length).decls.length + e' * (dates.length - 1) + d',
                   true)]).check σ := by
              apply Constr.check_congr
              intro w hw
              simp only [Constr.vars, List.map_cons, List.map_nil, List.mem_cons,
                List.not_mem_nil, or_false] at hw
              rcases hw with rfl | rfl | rfl
              · exact Function.update_noteq (by
                  have := varIdx_lt he' (by omega : d' < dates.length)
                    (findIdx?_lt hprev)
                  omega) 1 σ
              · exact Function.update_noteq (by
                  have := varIdx_lt he' (by omega : d' + 1 < dates.length)
                    (findIdx?_lt hnext)
                  omega) 1 σ
              · exact Function.update_noteq hne3 1 σ
            rw [hcch]
            exact feasible_constr hfeas (by
              rw [hceq]
              refine List.mem_append.2 (Or.inr ?_)
              exact List.mem_flatMap.2 ⟨e', he'r, List.mem_map.2 ⟨d', hd'r, rfl⟩⟩)
  · -- hard branch
    intro hct hfeas e he d hd hp
    have hsh := sequential_hard_shape
      (build_shift_assignment_model E dates.length shifts.length)
      E dates shifts rule prev next hpf hnf hprev hnext hct
    have hceq : (add_sequential_shift_constraint
        (build_shift_assignment_model E dates.length shifts.length)
        E dates shifts rule).1.constrs =
        (build_shift_assignment_model E dates.length shifts.length).constrs ++
        ((List.range E).flatMap fun e =>
          (List.range (dates.length - 1)).map fun d =>
            Constr.impl (varIdx dates.length shifts.length e d prev)
              (varIdx dates.length shifts.length e (d + 1) next)) := by
      rw [hsh]
    have hmem : Constr.impl (varIdx dates.length shifts.length e d prev)
        (varIdx dates.length shifts.length e (d + 1) next) ∈
        (add_sequential_shift_constraint
          (build_shift_assignment_model E dates.length shifts.length)
          E dates shifts rule).1.constrs := by
      rw [hceq]
      refine List.mem_append.2 (Or.inr ?_)
      exact List.mem_flatMap.2 ⟨e, List.mem_range.2 he,
        List.mem_map.2 ⟨d, List.mem_range.2 hd, rfl⟩⟩
    have hchk := feasible_constr hfeas hmem
    simp only [Constr.check, hp, Bool.or_eq_true] at hchk
    rcases hchk with h1 | h2
    · simp at h1
    · exact eq_of_beq h2

/-- A concrete assignment for the C5 witness: night shift on both days,
violation indicator raised. -/
def seqAssign : Nat → Int := fun i => if i = 0 ∨ i = 2 ∨ i = 4 then 1 else 0

/-- Witness for C5 at E = 1, dates {0, 1}, shifts {night, post-night}. -/
theorem sequential_soft_violation_indicator_witness :
    seqAssign (1 * 2 * 2 + 0 * (2 - 1) + 0) = 1 := by
  have h := sequential_soft_violation_indicator 1 [(0 : Date), 1] ["夜勤", "明勤"]
    ⟨some "夜勤", some "明勤", "soft", 20⟩ 0 1 seqAssign (by decide) (by decide)
    (by decide) (by decide)
  exact (h.1 rfl (by norm_num) (by decide) 0 (by norm_num) 0 (by norm_num)).1
    (by decide) (by decide)

/- ### Shift requests (`add_shift_request_constraint`) -/

/-- Python `a + b` on linear expressions. -/
def LinExpr.add (a b : LinExpr) : LinExpr :=
  ⟨a.terms ++ b.terms, a.const + b.const⟩

theorem LinExpr.add_eval (a b : LinExpr) (σ : Nat → Int) :
    (a.add b).eval σ = a.eval σ + b.eval σ := by
  simp only [LinExpr.add, LinExpr.eval, List.map_append, List.sum_append]
  ring

/-- One entry of the `shift_requests` list. -/
structure ShiftRequest where
  employee_id : Option String := none
  date_str : Option String := none
  requested_shift : Option String := none
  penalty_weight : Int := 0
  constraint_type : String := "soft"
deriving Repr, DecidableEq

/-- `employee_id_to_idx` / `date_to_idx`: a Python dict comprehension over
`enumerate` keeps the **last** position of a duplicated key. -/
def idToIdx (ids : List String) (x : String) : Option Nat :=
  ((ids.enum.filter fun p => p.2 == x).getLast?).map fun p => p.1

/-- `date_to_idx` lookup over the horizon. -/
def dateToIdx (dates : List Date) (d : Date) : Option Nat :=
  ((dates.enum.filter fun p => p.2 == d).getLast?).map fun p => p.1

/-- One iteration of the `add_shift_request_constraint` loop: the
validation gates in source order (missing/empty required field;
non-positive weight on a soft rule; unknown employee id; unparsable
date, via the external `parseDate` collaborator; date outside the
horizon; unknown shift name), then the hard fix or the soft violation
indicator with `requestedVar + violation == 1`. -/
def shiftRequestStep (emps : List Employee) (dates : List Date)
    (shifts : List String) (parseDate : String → Option Date)
    (acc : CpModel × List PenaltyTerm) (req : ShiftRequest) :
    CpModel × List PenaltyTerm :=
  if optFalsy req.employee_id || optFalsy req.date_str ||
      optFalsy req.requested_shift then acc
  else if req.constraint_type == "soft" && decide (req.penalty_weight ≤ 0) then acc
  else
    match idToIdx (emps.map fun r => r.id) (req.employee_id.getD "") with
    | none => acc
    | some e =>
      match parseDate (req.date_str.getD "") with
      | none => acc
      | some dobj =>
        match dateToIdx dates dobj with
        | none => acc
        | some d =>
          match shifts.findIdx? (· == req.requested_shift.getD "") with
          | none => acc
          | some s =>
            if req.constraint_type == "hard" then
              (acc.1.addC (Constr.lin
                (varE (varIdx dates.length shifts.length e d s)) .eq (constE 1)),
                acc.2)
            else if req.constraint_type == "soft" then
              let mv := acc.1.newVar 0 1
              (mv.1.addC (Constr.lin
                ((varE (varIdx dates.length shifts.length e d s)).add
                  (varE mv.2)) .eq (constE 1)),
                acc.2 ++ [(mv.2, req.penalty_weight)])
            else acc

/-- `add_shift_request_constraint(model, variables, employee_info_df,
dates, shifts, shift_requests)`. -/
def add_shift_request_constraint (m : CpModel) (emps : List Employee)
    (dates : List Date) (shifts : List String)
    (parseDate : String → Option Date) (shift_requests : List ShiftRequest) :
    CpModel × List PenaltyTerm :=
  shift_requests.foldl (shiftRequestStep emps dates shifts parseDate) (m, [])

/- ### Avoid-same-shift pairs (`add_avoid_same_shift_constraint`) -/

/-- One entry of the `avoid_rules` list. -/
structure AvoidRule where
  employee_pair : List String := []
  avoid_shifts : List String := []
  constraint_type : String := "hard"
deriving Repr, DecidableEq

/-- One iteration of the `add_avoid_same_shift_constraint` loop.  An
unknown name in `avoid_shifts` is dropped individually (`valid = false`);
the rule as a whole is skipped only when additionally **no** listed name
resolved.  For a hard rule, each date and each resolved shift gets
`var1 + var2 ≤ 1`. -/
def avoidRuleStep (emps : List Employee) (dates : List Date)
    (shifts : List String) (acc : CpModel × List PenaltyTerm)
    (rule : AvoidRule) : CpModel × List PenaltyTerm :=
  if rule.employee_pair.length != 2 then acc
  else if rule.avoid_shifts.isEmpty then acc
  else
    match idToIdx (emps.map fun r => r.id) (rule.employee_pair.getD 0 "") with
    | none => acc
    | some e1 =>
      match idToIdx (emps.map fun r => r.id) (rule.employee_pair.getD 1 "") with
      | none => acc
      | some e2 =>
        let avoidIdxs := rule.avoid_shifts.filterMap
          fun sn => shifts.findIdx? (· == sn)
        if avoidIdxs.isEmpty &&
            !(rule.avoid_shifts.all fun sn =>
              (shifts.findIdx? (· == sn)).isSome) then acc
        else if rule.constraint_type == "hard" then
          ({ acc.1 with constrs := acc.1.constrs ++
            ((List.range dates.length).flatMap fun d =>
              avoidIdxs.map fun s => Constr.lin
                ((varE (varIdx dates.length shifts.length e1 d s)).add
                  (varE (varIdx dates.length shifts.length e2 d s))) .le
                (constE 1)) }, acc.2)
        else acc

/-- `add_avoid_same_shift_constraint(model, variables, employee_info_df,
dates, shifts, avoid_rules)`. -/
def add_avoid_same_shift_constraint (m : CpModel) (emps : List Employee)
    (dates : List Date) (shifts : List String)
    (avoid_rules : List AvoidRule) : CpModel × List PenaltyTerm :=
  avoid_rules.foldl (avoidRuleStep emps dates shifts) (m, [])

theorem idToIdx_lt {ids : List String} {x : String} {i : Nat}
    (h : idToIdx ids x = some i) : i < ids.length := by
  unfold idToIdx at h
  cases hl : (ids.enum.filter fun p => p.2 == x).getLast? with
  | none => rw [hl] at h; cases h
  | some p =>
    rw [hl] at h
    have hp : p ∈ ids.enum.filter fun q => q.2 == x :=
      List.mem_of_mem_getLast? hl
    have hpe : p ∈ ids.enum := List.mem_of_mem_filter hp
    have := (List.mem_enum (x := p.2) (i := p.1) (by simpa using hpe)).1
    have h2 : p.1 = i := by simpa using h
    omega

theorem dateToIdx_lt {dates : List Date} {d : Date} {i : Nat}
    (h : dateToIdx dates d = some i) : i < dates.length := by
  unfold dateToIdx at h
  cases hl : (dates.enum.filter fun p => p.2 == d).getLast? with
  | none => rw [hl] at h; cases h
  | some p =>
    rw [hl] at h
    have hp : p ∈ dates.enum.filter fun q => q.2 == d :=
      List.mem_of_mem_getLast? hl
    have hpe : p ∈ dates.enum := List.mem_of_mem_filter hp
    have := (List.mem_enum (x := p.2) (i := p.1) (by simpa using hpe)).1
    have h2 : p.1 = i := by simpa using h
    omega

theorem getD_append_left (l l2 : List VarDecl) (d : VarDecl) (i : Nat)
    (hi : i < l.length) : (l ++ l2).getD i d = l.getD i d := by
  rw [List.getD_eq_getElem?_getD, List.getD_eq_getElem?_getD,
    List.getElem?_append_left hi]

theorem getD_append_one (l : List VarDecl) (a d : VarDecl) :
    (l ++ [a]).getD l.length d = a := by
  rw [List.getD_eq_getElem?_getD, List.getElem?_append_right (le_refl _)]
  simp

/-- Shape of one valid soft shift request appended to a model. -/
theorem shift_request_soft_shape (m : CpModel) (emps : List Employee)
    (dates : List Date) (shifts : List String)
    (parseDate : String → Option Date) (req : ShiftRequest)
    (e d s : Nat) (dobj : Date)
    (hv1 : optFalsy req.employee_id = false)
    (hv2 : optFalsy req.date_str = false)
    (hv3 : optFalsy req.requested_shift = false)
    (hct : req.constraint_type = "soft") (hw : 0 < req.penalty_weight)
    (he : idToIdx (emps.map fun r => r.id) (req.employee_id.getD "") = some e)
    (hp : parseDate (req.date_str.getD "") = some dobj)
    (hd : dateToIdx dates dobj = some d)
    (hs : shifts.findIdx? (· == req.requested_shift.getD "") = some s) :
    add_shift_request_constraint m emps dates shifts parseDate [req] =
      ({ decls := m.decls ++ [boolDecl]
         constrs := m.constrs ++ [Constr.lin
           ((varE (varIdx dates.length shifts.length e d s)).add
             (varE m.decls.length)) .eq (constE 1)]
         objective := m.objective },
       [(m.decls.length, req.penalty_weight)]) := by
  unfold add_shift_request_constraint
  rw [List.foldl_cons, List.foldl_nil]
  unfold shiftRequestStep
  rw [hct, he]
  dsimp only
  rw [hp]
  dsimp only
  rw [hd]
  dsimp only
  rw [hs]
  dsimp only
  simp only [hv1, hv2, hv3, Bool.or_self, Bool.false_eq_true, if_false]
  rw [if_neg (by simp; omega), if_neg (by decide), if_pos (by decide)]
  simp only [CpModel.newVar, CpModel.addC, boolDecl, List.nil_append]

/-- Claim C6.  A soft shift-request rule with positive weight that
passes validation makes the compiler allocate one boolean violation
variable and post `requestedVariable + violation == 1` (structural
conjuncts); consequently, in every feasible assignment the violation
variable is 1 exactly when the requested shift is not assigned to that
employee on that date. -/
theorem shift_request_soft_violation_iff (emps : List Employee)
    (dates : List Date) (shifts : List String)
    (parseDate : String → Option Date) (req : ShiftRequest)
    (e d s : Nat) (dobj : Date)
    (hv1 : optFalsy req.employee_id = false)
    (hv2 : optFalsy req.date_str = false)
    (hv3 : optFalsy req.requested_shift = false)
    (hct : req.constraint_type = "soft") (hw : 0 < req.penalty_weight)
    (he : idToIdx (emps.map fun r => r.id) (req.employee_id.getD "") = some e)
    (hp : parseDate (req.date_str.getD "") = some dobj)
    (hd : dateToIdx dates dobj = some d)
    (hs : shifts.findIdx? (· == req.requested_shift.getD "") = some s) :
    (add_shift_request_constraint
      (build_shift_assignment_model emps.length dates.length shifts.length)
      emps dates shifts parseDate [req]).1.constrs =
      (build_shift_assignment_model emps.length dates.length
        shifts.length).constrs ++ [Constr.lin
        ((varE (varIdx dates.length shifts.length e d s)).add
          (varE (emps.length * dates.length * shifts.length))) .eq (constE 1)] ∧
    (add_shift_request_constraint
      (build_shift_assignment_model emps.length dates.length shifts.length)
      emps dates shifts parseDate [req]).2 =
      [(emps.length * dates.length * shifts.length, req.penalty_weight)] ∧
    ∀ σ : Nat → Int,
      (add_shift_request_constraint
        (build_shift_assignment_model emps.length dates.length shifts.length)
        emps dates shifts parseDate [req]).1.feasible σ = true →
      (σ (emps.length * dates.length * shifts.length) = 1 ↔
        σ (varIdx dates.length shifts.length e d s) ≠ 1) := by
  have hbase : (build_shift_assignment_model emps.length dates.length
      shifts.length).decls.length =
      emps.length * dates.length * shifts.length := by
    simp [build_shift_assignment_model]
  have hsh := shift_request_soft_shape
    (build_shift_assignment_model emps.length dates.length shifts.length)
    emps dates shifts parseDate req e d s dobj hv1 hv2 hv3 hct hw he hp hd hs
  rw [hbase] at hsh
  have helt : e < emps.length := by
    have := idToIdx_lt he
    simpa using this
  have hdlt : d < dates.length := dateToIdx_lt hd
  have hslt : s < shifts.length := findIdx?_lt hs
  have hvlt := varIdx_lt helt hdlt hslt
  refine ⟨by rw [hsh], by rw [hsh], ?_⟩
  intro σ hfeas
  have hdeq : (add_shift_request_constraint
      (build_shift_assignment_model emps.length dates.length shifts.length)
      emps dates shifts parseDate [req]).1.decls =
      (build_shift_assignment_model emps.length dates.length
        shifts.length).decls ++ [boolDecl] := by rw [hsh]
  have hchk := feasible_constr hfeas (c := Constr.lin
    ((varE (varIdx dates.length shifts.length e d s)).add
      (varE (emps.length * dates.length * shifts.length))) .eq (constE 1))
    (by rw [hsh]; simp)
  have heq : ((varE (varIdx dates.length shifts.length e d s)).add
      (varE (emps.length * dates.length * shifts.length))).eval σ =
      (constE 1).eval σ := eq_of_beq hchk
  rw [LinExpr.add_eval, varE_eval, varE_eval, constE_eval] at heq
  have hreqdom := feasible_domain hfeas
    (i := varIdx dates.length shifts.length e d s)
    (by rw [hdeq]; simp only [List.length_append, List.length_cons,
      List.length_nil]; omega)
  rw [hdeq, getD_append_left _ _ _ _ (by omega), build_decl_bool hvlt] at hreqdom
  have hvioldom := feasible_domain hfeas
    (i := emps.length * dates.length * shifts.length)
    (by rw [hdeq]; simp only [List.length_append, List.length_cons,
      List.length_nil]; omega)
  rw [hdeq] at hvioldom
  rw [show emps.length * dates.length * shifts.length =
    (build_shift_assignment_model emps.length dates.length
      shifts.length).decls.length from hbase.symm, getD_append_one] at hvioldom
  simp only [boolDecl] at hreqdom hvioldom
  constructor
  · intro h1
    omega
  · intro h1
    omega

/-- Witness for C6: one employee, one date, the rest shift requested. -/
theorem shift_request_soft_violation_iff_witness :
    (add_shift_request_constraint (build_shift_assignment_model 1 1 1)
      [⟨"A001", "甲", "1F", "常勤", none⟩] [(0 : Date)] ["公休"]
      (fun x => if x = "2025-04-15" then some 0 else none)
      [⟨some "A001", some "2025-04-15", some "公休", 30, "soft"⟩]).2 =
      [(1 * 1 * 1, 30)] := by
  have h := shift_request_soft_violation_iff
    [⟨"A001", "甲", "1F", "常勤", none⟩] [(0 : Date)] ["公休"]
    (fun x => if x = "2025-04-15" then some 0 else none)
    ⟨some "A001", some "2025-04-15", some "公休", 30, "soft"⟩ 0 0 0 0
    (by decide) (by decide) (by decide) rfl (by norm_num)
    (by decide) (by simp) (by decide) (by decide)
  exact h.2.1

/- ### The rule-skip contract -/

theorem isEmpty_false_of_mem {α : Type} {l : List α} {x : α} (h : x ∈ l) :
    l.isEmpty = false := by
  cases l with
  | nil => cases h
  | cons a t => rfl

/-- A shift request failing one of the validation gates leaves the
accumulated model and penalty list untouched. -/
theorem shiftRequestStep_skip (emps : List Employee) (dates : List Date)
    (shifts : List String) (pd : String → Option Date)
    (acc : CpModel × List PenaltyTerm) (req : ShiftRequest)
    (hfail : optFalsy req.employee_id = true ∨ optFalsy req.date_str = true ∨
      optFalsy req.requested_shift = true ∨
      idToIdx (emps.map fun r => r.id) (req.employee_id.getD "") = none ∨
      pd (req.date_str.getD "") = none ∨
      (∃ dobj, pd (req.date_str.getD "") = some dobj ∧
        dateToIdx dates dobj = none) ∨
      shifts.findIdx? (· == req.requested_shift.getD "") = none) :
    shiftRequestStep emps dates shifts pd acc req = acc := by
  unfold shiftRequestStep
  rcases hfail with h | h | h | h | h | ⟨dobj, hp, hdt⟩ | h
  · simp [h]
  · simp [h]
  · simp [h]
  · simp [h]
  · cases hA : idToIdx (emps.map fun r => r.id) (req.employee_id.getD "") with
    | none => simp [hA]
    | some e => simp [hA, h]
  · cases hA : idToIdx (emps.map fun r => r.id) (req.employee_id.getD "") with
    | none => simp [hA]
    | some e => simp [hA, hp, hdt]
  · cases hA : idToIdx (emps.map fun r => r.id) (req.employee_id.getD "") with
    | none => simp [hA]
    | some e =>
      cases hP : pd (req.date_str.getD "") with
      | none => simp [hA, hP]
      | some dobj =>
        cases hD : dateToIdx dates dobj with
        | none => simp [hA, hP, hD]
        | some d => simp [hA, hP, hD, h]

/-- An avoid rule with an unknown employee id is skipped. -/
theorem avoidRuleStep_skip_unknown_employee (emps : List Employee)
    (dates : List Date) (shifts : List String)
    (acc : CpModel × List PenaltyTerm) (rule : AvoidRule)
    (hA : idToIdx (emps.map fun r => r.id) (rule.employee_pair.getD 0 "") = none) :
    avoidRuleStep emps dates shifts acc rule = acc := by
  unfold avoidRuleStep
  rw [hA]
  simp

/-- An avoid rule none of whose listed shift names resolves is skipped. -/
theorem avoidRuleStep_skip_all_unknown (emps : List Employee)
    (dates : List Date) (shifts : List String)
    (acc : CpModel × List PenaltyTerm) (rule : AvoidRule)
    (hall : ∀ sn ∈ rule.avoid_shifts, shifts.findIdx? (· == sn) = none) :
    avoidRuleStep emps dates shifts acc rule = acc := by
  unfold avoidRuleStep
  by_cases hne : rule.avoid_shifts = []
  · simp [hne]
  · have hidx : rule.avoid_shifts.filterMap
        (fun sn => shifts.findIdx? (· == sn)) = [] := by
      rw [List.filterMap_eq_nil_iff]
      exact hall
    have hvalid : (rule.avoid_shifts.all fun sn =>
        (shifts.findIdx? (· == sn)).isSome) = false := by
      cases hcc : rule.avoid_shifts with
      | nil => exact absurd hcc hne
      | cons a t =>
        have ha := hall a (by rw [hcc]; simp)
        simp [List.all_cons, ha]
    cases hA : idToIdx (emps.map fun r => r.id) (rule.employee_pair.getD 0 "") with
    | none => simp [hA]
    | some e1 =>
      cases hB : idToIdx (emps.map fun r => r.id)
          (rule.employee_pair.getD 1 "") with
      | none => simp [hA, hB]
      | some e2 => simp [hA, hB, hidx, hvalid]

theorem filterMap_filter_isSome {α β : Type} (f : α → Option β) (l : List α) :
    (l.filter fun x => (f x).isSome).filterMap f = l.filterMap f := by
  induction l with
  | nil => rfl
  | cons a t ih =>
    cases hfa : f a <;>
      simp [List.filter_cons, hfa, List.filterMap_cons, ih]

/-- An avoid rule with at least one resolvable shift name behaves exactly
like the same rule restricted to its resolvable names: unknown names are
ignored individually, the rule is not skipped. -/
theorem avoidRuleStep_ignores_unknown (emps : List Employee)
    (dates : List Date) (shifts : List String)
    (acc : CpModel × List PenaltyTerm) (rule : AvoidRule)
    (hsome : ∃ sn ∈ rule.avoid_shifts, (shifts.findIdx? (· == sn)).isSome = true) :
    avoidRuleStep emps dates shifts acc rule =
      avoidRuleStep emps dates shifts acc
        { rule with avoid_shifts := rule.avoid_shifts.filter fun sn =>
            (shifts.findIdx? (· == sn)).isSome } := by
  obtain ⟨pair, ashifts, ct⟩ := rule
  obtain ⟨sn0, hsn0, hsome0⟩ := hsome
  have hne : ashifts.isEmpty = false := isEmpty_false_of_mem hsn0
  have hne' : (ashifts.filter fun sn =>
      (shifts.findIdx? (· == sn)).isSome).isEmpty = false :=
    isEmpty_false_of_mem (List.mem_filter.2 ⟨hsn0, hsome0⟩)
  have hAI : ((ashifts.filter fun sn =>
      (shifts.findIdx? (· == sn)).isSome).filterMap
        fun sn => shifts.findIdx? (· == sn)) =
      ashifts.filterMap fun sn => shifts.findIdx? (· == sn) :=
    filterMap_filter_isSome _ _
  have hIE : (ashifts.filterMap fun sn =>
      shifts.findIdx? (· == sn)).isEmpty = false := by
    cases hs0 : shifts.findIdx? (· == sn0) with
    | none => rw [hs0] at hsome0; cases hsome0
    | some i =>
      exact isEmpty_false_of_mem (List.mem_filterMap.2 ⟨sn0, hsn0, hs0⟩)
  unfold avoidRuleStep
  dsimp only
  by_cases hpl : (pair.length != 2) = true
  · rw [if_pos hpl, if_pos hpl]
  · rw [if_neg hpl, if_neg hpl]
    simp only [hne, hne', Bool.false_eq_true, if_false]
    cases hA : idToIdx (emps.map fun r => r.id) (pair.getD 0 "") with
    | none => rfl
    | some e1 =>
      cases hB : idToIdx (emps.map fun r => r.id) (pair.getD 1 "") with
      | none => rfl
      | some e2 =>
        simp only [hAI, hIE, Bool.false_and, Bool.false_eq_true, if_false]

/-- The warned-and-skipped floor with no employees in
`add_staffing_constraints`. -/
theorem staffing_empty_cohort_skip (m : CpModel) (emps : List Employee)
    (dt : Date) (shifts : List String)
    (floor : String) (frules : List (String × StaffingRule))
    (h : floorIndices emps floor = []) :
    add_staffing_constraints m emps [dt] shifts [(floor, frules)] = (m, []) := by
  simp only [add_staffing_constraints, List.length_cons, List.length_nil,
    List.range_succ, List.range_zero, List.nil_append, List.foldl_cons,
    List.foldl_nil, h, List.isEmpty_nil, if_true]

/-- Counterexample to claim C4 as stated: an avoid-same-shift rule that
references a shift name absent from the shift list ("特勤", alongside
the present "日勤") is NOT skipped as a rule instance — it still
contributes a constraint (here one: 1 date × 1 resolved shift); only the
unknown name is dropped. -/
theorem avoid_unknown_shift_not_skipped :
    (add_avoid_same_shift_constraint ⟨[], [], none⟩
      [⟨"A001", "甲", "1F", "常勤", none⟩, ⟨"A002", "乙", "1F", "常勤", none⟩]
      [(0 : Date)] ["日勤"]
      [⟨["A001", "A002"], ["特勤", "日勤"], "hard"⟩]).1.constrs.length = 1 := by
  decide

/-- Claim C4, corrected.  A rule instance failing validation is skipped
as a single instance — no constraints, no penalty terms, processing
continues with the remaining rules: (1) a shift request with a
missing/empty required field, unknown employee id, unparsable or
out-of-horizon date, or unknown shift name; (2) an avoid-same-shift rule
with an unknown employee id; (3) an avoid-same-shift rule **all** of
whose shift names are absent from the shift list; (4) an avoid rule with
some absent and some present shift names is, however, not skipped: the
absent names are ignored and the rule applies to the present ones
(this is where the original claim fails); (5) a staffing floor with an
empty eligible cohort is skipped whole. -/
theorem rule_skip_contract :
    (∀ (m : CpModel) (emps : List Employee) (dates : List Date)
      (shifts : List String) (pd : String → Option Date)
      (req : ShiftRequest) (rest : List ShiftRequest),
      (optFalsy req.employee_id = true ∨ optFalsy req.date_str = true ∨
        optFalsy req.requested_shift = true ∨
        idToIdx (emps.map fun r => r.id) (req.employee_id.getD "") = none ∨
        pd (req.date_str.getD "") = none ∨
        (∃ dobj, pd (req.date_str.getD "") = some dobj ∧
          dateToIdx dates dobj = none) ∨
        shifts.findIdx? (· == req.requested_shift.getD "") = none) →
      add_shift_request_constraint m emps dates shifts pd (req :: rest) =
        add_shift_request_constraint m emps dates shifts pd rest) ∧
    (∀ (m : CpModel) (emps : List Employee) (dates : List Date)
      (shifts : List String) (rule : AvoidRule) (rest : List AvoidRule),
      idToIdx (emps.map fun r => r.id) (rule.employee_pair.getD 0 "") = none →
      add_avoid_same_shift_constraint m emps dates shifts (rule :: rest) =
        add_avoid_same_shift_constraint m emps dates shifts rest) ∧
    (∀ (m : CpModel) (emps : List Employee) (dates : List Date)
      (shifts : List String) (rule : AvoidRule) (rest : List AvoidRule),
      (∀ sn ∈ rule.avoid_shifts, shifts.findIdx? (· == sn) = none) →
      add_avoid_same_shift_constraint m emps dates shifts (rule :: rest) =
        add_avoid_same_shift_constraint m emps dates shifts rest) ∧
    (∀ (m : CpModel) (emps : List Employee) (dates : List Date)
      (shifts : List String) (rule : AvoidRule) (rest : List AvoidRule),
      (∃ sn ∈ rule.avoid_shifts, (shifts.findIdx? (· == sn)).isSome = true) →
      add_avoid_same_shift_constraint m emps dates shifts (rule :: rest) =
        add_avoid_same_shift_constraint m emps dates shifts
          ({ rule with avoid_shifts := rule.avoid_shifts.filter fun sn =>
            (shifts.findIdx? (· == sn)).isSome } :: rest)) ∧
    (∀ (m : CpModel) (emps : List Employee) (dt : Date)
      (shifts : List String) (floor : String)
      (frules : List (String × StaffingRule)),
      floorIndices emps floor = [] →
      add_staffing_constraints m emps [dt] shifts [(floor, frules)] = (m, [])) := by
  refine ⟨?_, ?_, ?_, ?_, ?_⟩
  · intro m emps dates shifts pd req rest hfail
    unfold add_shift_request_constraint
    rw [List.foldl_cons, shiftRequestStep_skip emps dates shifts pd _ req hfail]
  · intro m emps dates shifts rule rest hA
    unfold add_avoid_same_shift_constraint
    rw [List.foldl_cons, avoidRuleStep_skip_unknown_employee emps dates shifts
      _ rule hA]
  · intro m emps dates shifts rule rest hall
    unfold add_avoid_same_shift_constraint
    rw [List.foldl_cons, avoidRuleStep_skip_all_unknown emps dates shifts
      _ rule hall]
  · intro m emps dates shifts rule rest hsome
    unfold add_avoid_same_shift_constraint
    rw [List.foldl_cons, List.foldl_cons, avoidRuleStep_ignores_unknown
      emps dates shifts _ rule hsome]
  · intro m emps dt shifts floor frules hcoh
    exact staffing_empty_cohort_skip m emps dt shifts floor frules hcoh

/-- Witness for the corrected C4: a request naming the unknown employee
"ZZZ" is dropped, and a floor with no employees contributes nothing. -/
theorem rule_skip_contract_witness :
    add_shift_request_constraint ⟨[], [], none⟩
      [⟨"A001", "甲", "1F", "常勤", none⟩] [(0 : Date)] ["公休"]
      (fun _ => some 0) [⟨some "ZZZ", some "x", some "公休", 5, "soft"⟩] =
      add_shift_request_constraint ⟨[], [], none⟩
        [⟨"A001", "甲", "1F", "常勤", none⟩] [(0 : Date)] ["公休"]
        (fun _ => some 0) [] ∧
    add_staffing_constraints ⟨[], [], none⟩ [⟨"A001", "甲", "1F", "常勤", none⟩]
      [(0 : Date)] ["公休"] [("2F", [("公休", ⟨some 1, "hard", 0, 0⟩)])] =
      (⟨[], [], none⟩, []) := by
  constructor
  · exact rule_skip_contract.1 _ _ _ _ _ _ _
      (Or.inr (Or.inr (Or.inr (Or.inl (by decide)))))
  · exact rule_skip_contract.2.2.2.2 _ _ _ _ _ _ (by decide)

/- ### Status-based forced leave (`add_employee_status_constraint`) -/

/-- `add_employee_status_constraint(model, variables, employee_info_df,
dates, shifts, status_values_for_full_leave, leave_shift_name)`.  Returns
the model unchanged when the ステータス column is absent, the status set
is empty, or the leave shift is not in the shift list; otherwise
hard-fixes every date of every status-matching employee to the leave
shift.  Hard only — no penalty terms. -/
def add_employee_status_constraint (m : CpModel) (emps : List Employee)
    (has_status_col : Bool) (dates : List Date) (shifts : List String)
    (status_values_for_full_leave : List String)
    (leave_shift_name : String) : CpModel :=
  if !has_status_col then m
  else if status_values_for_full_leave.isEmpty then m
  else
    match shifts.findIdx? (· == leave_shift_name) with
    | none => m
    | some leave =>
      { m with constrs := m.constrs ++ (emps.enum.flatMap fun p =>
          if !(optFalsy p.2.status) &&
              status_values_for_full_leave.contains (p.2.status.getD "") then
            (List.range dates.length).map fun d =>
              Constr.lin (varE (varIdx dates.length shifts.length p.1 d leave))
                .eq (constE 1)
          else []) }

theorem enum_mem_of_lt {α : Type} (l : List α) (i : Nat) (hi : i < l.length) :
    (i, l.get ⟨i, hi⟩) ∈ l.enum := by
  have h1 : i < l.enum.length := by simp [hi]
  have h2 := List.getElem_enum l (i := i) (h := h1)
  have h3 := List.getElem_mem h1
  rw [h2] at h3
  simpa using h3

theorem status_shape (m : CpModel) (emps : List Employee)
    (dates : List Date) (shifts : List String)
    (statusSet : List String) (leaveName : String) (leave : Nat)
    (hS : statusSet.isEmpty = false)
    (hleave : shifts.findIdx? (· == leaveName) = some leave) :
    add_employee_status_constraint m emps true dates shifts statusSet
      leaveName =
      { m with constrs := m.constrs ++ (emps.enum.flatMap fun p =>
          if !(optFalsy p.2.status) && statusSet.contains (p.2.status.getD "")
          then (List.range dates.length).map fun d =>
            Constr.lin (varE (varIdx dates.length shifts.length p.1 d leave))
              .eq (constE 1)
          else []) } := by
  unfold add_employee_status_constraint
  rw [hleave]
  simp only [hS, Bool.not_true, Bool.false_eq_true, if_false,
    Bool.not_false, if_true]

/-- Claim C7.  Every employee whose status is in the configured
forced-leave set has the rest-shift variable hard-fixed to 1 on every
date of the horizon; hence in every feasible assignment of any model
containing these constraints (and the base model, with any soft rules'
penalty terms in the objective — the objective never affects
feasibility), such an employee is assigned the rest shift, and no other
shift, on every date. -/
theorem forced_leave_dominance (emps : List Employee) (dates : List Date)
    (shifts : List String) (statusSet : List String) (leaveName : String)
    (leave e : Nat) (st : String) (M : CpModel) (σ : Nat → Int)
    (hS : statusSet.isEmpty = false)
    (hleave : shifts.findIdx? (· == leaveName) = some leave)
    (he : e < emps.length)
    (hst : (emps.get ⟨e, he⟩).status = some st)
    (hst' : st.isEmpty = false)
    (hmem : statusSet.contains st = true)
    (hconstrs : ∀ c ∈ (add_employee_status_constraint
      (build_shift_assignment_model emps.length dates.length shifts.length)
      emps true dates shifts statusSet leaveName).constrs, c ∈ M.constrs)
    (hdecls : ∀ i < emps.length * dates.length * shifts.length,
      (M.decls.getD i ⟨0, 0⟩) = boolDecl ∧ i < M.decls.length)
    (hfeas : M.feasible σ = true) :
    ∀ d < dates.length,
      σ (varIdx dates.length shifts.length e d leave) = 1 ∧
      ∀ s < shifts.length, s ≠ leave →
        σ (varIdx dates.length shifts.length e d s) = 0 := by
  have hsh := status_shape
    (build_shift_assignment_model emps.length dates.length shifts.length)
    emps dates shifts statusSet leaveName leave hS hleave
  intro d hd
  have hforced : σ (varIdx dates.length shifts.length e d leave) = 1 := by
    have hcmem : Constr.lin
        (varE (varIdx dates.length shifts.length e d leave)) .eq (constE 1) ∈
        (add_employee_status_constraint
          (build_shift_assignment_model emps.length dates.length shifts.length)
          emps true dates shifts statusSet leaveName).constrs := by
      rw [hsh]
      refine List.mem_append.2 (Or.inr ?_)
      refine List.mem_flatMap.2 ⟨(e, emps.get ⟨e, he⟩), enum_mem_of_lt emps e he, ?_⟩
      have hcnd : (!(optFalsy (e, emps.get ⟨e, he⟩).2.status) &&
          statusSet.contains ((e, emps.get ⟨e, he⟩).2.status.getD "")) = true := by
        dsimp only
        rw [hst]
        simp only [optFalsy, Option.getD_some, hst', Bool.not_false, Bool.true_and]
        exact hmem
      rw [if_pos hcnd]
      exact List.mem_map.2 ⟨d, List.mem_range.2 hd, rfl⟩
    have hchk := feasible_constr hfeas (hconstrs _ hcmem)
    have heq : (varE (varIdx dates.length shifts.length e d leave)).eval σ =
        (constE 1).eval σ := eq_of_beq hchk
    rwa [varE_eval, constE_eval] at heq
  refine ⟨hforced, ?_⟩
  intro s hs hsne
  have hsub : ∀ c ∈ (build_shift_assignment_model emps.length dates.length
      shifts.length).constrs, c ∈ M.constrs := by
    intro c hc
    apply hconstrs
    rw [hsh]
    exact List.mem_append.2 (Or.inl hc)
  have hcov := feasible_coverage_unique emps.length dates.length shifts.length
    M σ hdecls hsub hfeas e he d hd
  obtain ⟨s0, hs0, h1, huniq⟩ := hcov
  have hleave_lt : leave < shifts.length := findIdx?_lt hleave
  have hls0 : leave = s0 := huniq leave hleave_lt hforced
  by_contra hne0
  have hbool := build_var_bool (E := emps.length) (D := dates.length)
    (S := shifts.length) hdecls hfeas (varIdx_lt he hd hs)
  have hone : σ (varIdx dates.length shifts.length e d s) = 1 := by
    rcases hbool with h0 | h1'
    · exact absurd h0 hne0
    · exact h1'
  have := huniq s hs hone
  omega

/-- A concrete assignment for the C7 witness: the single employee rests. -/
def statusAssign : Nat → Int := fun i => if i = 1 then 1 else 0

/-- Witness for C7: one employee on 育休, shifts {day, rest}, one date:
the rest shift is forced on and the day shift forced off. -/
theorem forced_leave_dominance_witness :
    statusAssign (varIdx 1 2 0 0 1) = 1 ∧ statusAssign (varIdx 1 2 0 0 0) = 0 := by
  have h := forced_leave_dominance [⟨"A001", "甲", "1F", "常勤", some "育休"⟩]
    [(0 : Date)] ["日勤", "公休"] ["育休", "病休"] "公休" 1 0 "育休"
    (add_employee_status_constraint (build_shift_assignment_model 1 1 2)
      [⟨"A001", "甲", "1F", "常勤", some "育休"⟩] true [(0 : Date)]
      ["日勤", "公休"] ["育休", "病休"] "公休")
    statusAssign rfl (by decide) (by decide) rfl rfl (by decide)
    (fun c hc => hc) (by decide) (by decide)
  exact ⟨(h 0 (by norm_num)).1,
    (h 0 (by norm_num)).2 0 (by norm_num) (by norm_num)⟩

/- ### Solve and decode (`solve_and_get_results`) -/

/-- The terminal statuses of one solve attempt (`cp_model.OPTIMAL`,
`FEASIBLE`, `INFEASIBLE`, `MODEL_INVALID`, and the catch-all else
branch). -/
inductive SolveStatus
  | optimal
  | feasibleNonOptimal
  | infeasible
  | modelInvalid
  | unknown
deriving Repr, DecidableEq

/-- `solve_and_get_results(model, employee_ids, dates, shifts,
variables)`.  The CP-SAT solver is the external capability; its outcome
enters as the terminal `status` and the variable valuation `σ`.  On
OPTIMAL or FEASIBLE the decoder builds the (employee × date) table whose
cell is the first shift in list order whose variable evaluates to 1
(`none` when no variable is 1, matching the untouched NaN cell); on
INFEASIBLE, MODEL_INVALID, or any other status it returns `none` — no
partial table. -/
def solve_and_get_results (status : SolveStatus) (σ : Nat → Int)
    (employee_ids : List String) (dates : List Date) (shifts : List String) :
    Option (List (List (Option String))) :=
  match status with
  | .optimal | .feasibleNonOptimal =>
    some ((List.range employee_ids.length).map fun e =>
      (List.range dates.length).map fun d =>
        ((List.range shifts.length).find? fun s =>
          σ (varIdx dates.length shifts.length e d s) == 1).map
          fun s => shifts.getD s "")
  | _ => none

theorem getD_map_range {α : Type} (n i : Nat) (f : Nat → α) (d : α)
    (hi : i < n) : ((List.range n).map f).getD i d = f i := by
  rw [List.getD_eq_getElem?_getD, List.getElem?_map, List.getElem?_range hi]
  rfl

/-- Claim C8.  `solve_and_get_results` returns a decoded table exactly
when the solver status is OPTIMAL or FEASIBLE (first conjunct), returns
`none` on INFEASIBLE, MODEL_INVALID and any other status with no partial
result (second conjunct), and on success — for a valuation feasible for
a model containing the base coverage constraints — maps every (employee,
date) cell to the unique shift whose variable evaluated to 1 (third
conjunct). -/
theorem solve_decode_contract (status : SolveStatus) (σ : Nat → Int)
    (employee_ids : List String) (dates : List Date) (shifts : List String)
    (M : CpModel)
    (hdecls : ∀ i < employee_ids.length * dates.length * shifts.length,
      (M.decls.getD i ⟨0, 0⟩) = boolDecl ∧ i < M.decls.length)
    (hconstrs : ∀ c ∈ (build_shift_assignment_model employee_ids.length
      dates.length shifts.length).constrs, c ∈ M.constrs)
    (hfeas : M.feasible σ = true) :
    ((status = .optimal ∨ status = .feasibleNonOptimal) ↔
      (solve_and_get_results status σ employee_ids dates shifts).isSome = true) ∧
    ((status = .infeasible ∨ status = .modelInvalid ∨ status = .unknown) →
      solve_and_get_results status σ employee_ids dates shifts = none) ∧
    (∀ table, solve_and_get_results status σ employee_ids dates shifts =
        some table →
      ∀ e < employee_ids.length, ∀ d < dates.length,
        ∃ s < shifts.length, σ (varIdx dates.length shifts.length e d s) = 1 ∧
          (table.getD e []).getD d none = some (shifts.getD s "") ∧
          ∀ s' < shifts.length,
            σ (varIdx dates.length shifts.length e d s') = 1 → s' = s) := by
  refine ⟨?_, ?_, ?_⟩
  · cases status <;> simp [solve_and_get_results]
  · intro h
    rcases h with rfl | rfl | rfl <;> rfl
  · intro table htable e he d hd
    have hcov := feasible_coverage_unique employee_ids.length dates.length
      shifts.length M σ hdecls hconstrs hfeas e he d hd
    obtain ⟨s0, hs0, h1, huniq⟩ := hcov
    have htab : table = (List.range employee_ids.length).map fun e =>
        (List.range dates.length).map fun d =>
          ((List.range shifts.length).find? fun s =>
            σ (varIdx dates.length shifts.length e d s) == 1).map
            fun s => shifts.getD s "" := by
      cases status with
      | optimal =>
        simpa [solve_and_get_results] using htable.symm
      | feasibleNonOptimal =>
        simpa [solve_and_get_results] using htable.symm
      | infeasible => cases htable
      | modelInvalid => cases htable
      | unknown => cases htable
    have hcell : (table.getD e []).getD d none =
        ((List.range shifts.length).find? fun s =>
          σ (varIdx dates.length shifts.length e d s) == 1).map
          fun s => shifts.getD s "" := by
      rw [htab, getD_map_range _ _ _ _ he, getD_map_range _ _ _ _ hd]
    have hfind : ((List.range shifts.length).find? fun s =>
        σ (varIdx dates.length shifts.length e d s) == 1) = some s0 := by
      cases hf : (List.range shifts.length).find? fun s =>
          σ (varIdx dates.length shifts.length e d s) == 1 with
      | none =>
        exfalso
        have := List.find?_eq_none.1 hf s0 (List.mem_range.2 hs0)
        exact this (by simp [h1])
      | some x =>
        have hx0 := List.find?_some hf
        simp only [beq_iff_eq] at hx0
        have hxr : x < shifts.length :=
          List.mem_range.1 (List.mem_of_find?_eq_some hf)
        rw [huniq x hxr hx0]
    refine ⟨s0, hs0, h1, ?_, huniq⟩
    rw [hcell, hfind]
    rfl

/-- Witness for C8: one employee, one date, the rest shift assigned. -/
theorem solve_decode_contract_witness :
    (solve_and_get_results .optimal statusAssign ["A001"] [(0 : Date)]
      ["日勤", "公休"]).isSome = true := by
  have h := solve_decode_contract .optimal statusAssign ["A001"] [(0 : Date)]
    ["日勤", "公休"] (build_shift_assignment_model 1 1 2)
    (by decide) (fun c hc => hc) (by decide)
  exact h.1.1 (Or.inl rfl)

/- ### Minimum holidays (`add_min_holidays_constraint`) -/

/-- Configuration of the minimum-holidays rule. -/
structure MinHolidaysRule where
  min_days : Option Int
  target_employment_type : String := "常勤"
  constraint_type : String := "hard"
  under_penalty_weight : Int := 0
deriving Repr, DecidableEq

/-- `add_min_holidays_constraint(model, variables, employee_info_df,
dates, shifts, rule_details)`: for every employee of the targeted
employment category, hard — `sum of 公休 variables ≥ min`; soft with
positive weight — a shortage variable in `[0, min]` with
`sum + shortage ≥ min`, weighted. -/
def add_min_holidays_constraint (m : CpModel) (emps : List Employee)
    (dates : List Date) (shifts : List String) (rule : MinHolidaysRule) :
    CpModel × List PenaltyTerm :=
  match rule.min_days with
  | none => (m, [])
  | some minH =>
    match shifts.findIdx? (· == "公休") with
    | none => (m, [])
    | some hol =>
      emps.enum.foldl (fun acc p =>
        if p.2.employment_type == rule.target_employment_type then
          let sumExpr := sumVars ((List.range dates.length).map fun d =>
            varIdx dates.length shifts.length p.1 d hol)
          if rule.constraint_type == "hard" then
            (acc.1.addC (Constr.lin sumExpr .ge (constE minH)), acc.2)
          else if rule.constraint_type == "soft" &&
              decide (0 < rule.under_penalty_weight) then
            let mv := acc.1.newVar 0 minH
            (mv.1.addC (Constr.lin (sumExpr.add (varE mv.2)) .ge (constE minH)),
              acc.2 ++ [(mv.2, rule.under_penalty_weight)])
          else acc
        else acc) (m, [])

/- ### Assignment balance (`add_assignment_balance_constraint`) -/

/-- Configuration of the assignment-balance rule. -/
structure BalanceRule where
  target_employment_type : Option String := none
  target_shift_name : Option String := none
  constraint_type : String := "soft"
  penalty_weight : Int := 0
  max_diff_allowed : Option Int := none
deriving Repr, DecidableEq

/-- `add_assignment_balance_constraint(model, variables,
employee_info_df, dates, shifts, rule_details)`: per-employee assignment
counters for the target shift over the cohort of the target employment
category, their min/max/difference; hard — `diff ≤ max_diff_allowed`;
soft — `diff` weighted.  Cohorts of size ≤ 1 are skipped. -/
def add_assignment_balance_constraint (m : CpModel) (emps : List Employee)
    (dates : List Date) (shifts : List String) (rule : BalanceRule) :
    CpModel × List PenaltyTerm :=
  let D := dates.length
  if optFalsy rule.target_employment_type ||
      optFalsy rule.target_shift_name then (m, [])
  else if rule.constraint_type == "soft" &&
      decide (rule.penalty_weight ≤ 0) then (m, [])
  else if rule.constraint_type == "hard" &&
      (rule.max_diff_allowed.isNone ||
        decide (rule.max_diff_allowed.getD 0 < 0)) then (m, [])
  else
    match shifts.findIdx? (· == rule.target_shift_name.getD "") with
    | none => (m, [])
    | some ts =>
      let cohort := emps.enum.filterMap fun p =>
        if p.2.employment_type == rule.target_employment_type.getD ""
        then some p.1 else none
      if cohort.length ≤ 1 then (m, [])
      else
        let base := m.decls.length
        let nMin := base + cohort.length
        let nMax := base + cohort.length + 1
        let nDiff := base + cohort.length + 2
        let m1 : CpModel := { m with
          decls := m.decls ++ (cohort.map fun _ => (⟨0, (D : Int)⟩ : VarDecl)) ++
            [⟨0, (D : Int)⟩, ⟨0, (D : Int)⟩, ⟨0, (D : Int)⟩]
          constrs := m.constrs ++ (cohort.enum.map fun q =>
            Constr.lin (varE (base + q.1)) .eq
              (sumVars ((List.range D).map fun d =>
                varIdx D shifts.length q.2 d ts))) ++
            [Constr.minEq nMin ((List.range cohort.length).map (base + ·)),
             Constr.maxEq nMax ((List.range cohort.length).map (base + ·)),
             Constr.lin (varE nDiff) .eq ((varE nMax).sub (varE nMin))] }
        if rule.constraint_type == "hard" then
          (m1.addC (Constr.lin (varE nDiff) .le
            (constE (rule.max_diff_allowed.getD 0))), [])
        else if rule.constraint_type == "soft" then
          (m1, [(nDiff, rule.penalty_weight)])
        else (m1, [])

/- ### Total workdays (`add_total_workdays_constraint`) -/

/-- Module constant: the shifts counted as working days. -/
def WORKING_SHIFTS_FOR_DAILY_TOTAL : List String := ["日勤", "早出", "夜勤", "明勤"]

/-- One entry of the `workdays_rules` list. -/
structure TotalWorkdaysRule where
  employee_id : Option String := none
  constraint_type : Option String := none
  days : Option Int := none
  penalty_weight : Int := 0
deriving Repr, DecidableEq

/-- One iteration of the `add_total_workdays_constraint` loop: the
required fields, the first-index employee lookup (`list.index`), then
the `exact` / `max` / `min` hard modes and `soft_exact` / `soft_max` /
`soft_min` deviation modes. -/
def totalWorkdaysStep (emps : List Employee) (dates : List Date)
    (shifts : List String) (workIdx : List Nat)
    (acc : CpModel × List PenaltyTerm) (rule : TotalWorkdaysRule) :
    CpModel × List PenaltyTerm :=
  if rule.employee_id.isNone || rule.constraint_type.isNone ||
      rule.days.isNone then acc
  else
    match (emps.map fun r => r.id).findIdx? (· == rule.employee_id.getD "") with
    | none => acc
    | some e =>
      let expr := sumVars ((List.range dates.length).flatMap fun d =>
        workIdx.map fun s => varIdx dates.length shifts.length e d s)
      let td := rule.days.getD 0
      let ct := rule.constraint_type.getD ""
      if ct == "exact" then
        (acc.1.addC (Constr.lin expr .eq (constE td)), acc.2)
      else if ct == "max" then
        (acc.1.addC (Constr.lin expr .le (constE td)), acc.2)
      else if ct == "min" then
        (acc.1.addC (Constr.lin expr .ge (constE td)), acc.2)
      else if ct == "soft_exact" then
        if 0 < rule.penalty_weight then
          let mv := acc.1.newVar 0 (dates.length : Int)
          ((mv.1.addC (Constr.lin (expr.sub (constE td)) .le
              (varE mv.2))).addC
            (Constr.lin ((constE td).sub expr) .le (varE mv.2)),
            acc.2 ++ [(mv.2, rule.penalty_weight)])
        else acc
      else if ct == "soft_max" then
        if 0 < rule.penalty_weight then
          let mv := acc.1.newVar 0 (dates.length : Int)
          (mv.1.addC (Constr.lin (expr.sub (constE td)) .le (varE mv.2)),
            acc.2 ++ [(mv.2, rule.penalty_weight)])
        else acc
      else if ct == "soft_min" then
        if 0 < rule.penalty_weight then
          let mv := acc.1.newVar 0 (dates.length : Int)
          (mv.1.addC (Constr.lin ((constE td).sub expr) .le (varE mv.2)),
            acc.2 ++ [(mv.2, rule.penalty_weight)])
        else acc
      else acc

/-- `add_total_workdays_constraint(model, variables, employee_info_df,
dates, shifts, workdays_rules)`. -/
def add_total_workdays_constraint (m : CpModel) (emps : List Employee)
    (dates : List Date) (shifts : List String)
    (workdays_rules : List TotalWorkdaysRule) : CpModel × List PenaltyTerm :=
  let workIdx := workShiftIndices shifts WORKING_SHIFTS_FOR_DAILY_TOTAL
  if workIdx.isEmpty then (m, [])
  else workdays_rules.foldl (totalWorkdaysStep emps dates shifts workIdx) (m, [])

/- ### Weekend / holiday rest (`add_weekend_holiday_constraint`) -/

/-- `add_weekend_holiday_constraint(model, variables,
employee_ids_master_list, dates, shifts, holidays_list,
target_employee_ids, constraint_type, penalty_weight)`: on every
Saturday/Sunday (`weekday ≥ 5`) or listed holiday, force (hard) or
prefer (soft, request-style indicator) the 公休 shift for the targeted
employees (all employees when no target list is given). -/
def add_weekend_holiday_constraint (m : CpModel)
    (employee_ids_master_list : List String) (dates : List Date)
    (shifts : List String) (holidays_list : List Date)
    (target_employee_ids : Option (List String))
    (constraint_type : String) (penalty_weight : Int) :
    CpModel × List PenaltyTerm :=
  let targets :=
    match target_employee_ids with
    | some ids =>
      if ids.isEmpty then List.range employee_ids_master_list.length
      else ids.filterMap fun i => employee_ids_master_list.findIdx? (· == i)
    | none => List.range employee_ids_master_list.length
  if targets.isEmpty then (m, [])
  else
    match shifts.findIdx? (· == "公休") with
    | none => (m, [])
    | some ts =>
      dates.enum.foldl (fun acc p =>
        if decide (5 ≤ Date.weekday p.2) || holidays_list.contains p.2 then
          targets.foldl (fun acc e =>
            if constraint_type == "hard" then
              (acc.1.addC (Constr.lin
                (varE (varIdx dates.length shifts.length e p.1 ts)) .eq
                (constE 1)), acc.2)
            else if constraint_type == "soft" && decide (0 < penalty_weight) then
              let mv := acc.1.newVar 0 1
              (mv.1.addC (Constr.lin
                ((varE (varIdx dates.length shifts.length e p.1 ts)).add
                  (varE mv.2)) .eq (constE 1)),
                acc.2 ++ [(mv.2, penalty_weight)])
            else acc) acc
        else acc) (m, [])

/- ### The main assembly pipeline (`main`) -/

/-- Module constant `SHIFTS`. -/
def SHIFTS : List String := ["日勤", "公休", "夜勤", "早出", "明勤"]

/-- Module constant `HOLIDAYS_2025_APR_MAY`, as offsets from
2025-04-10 (Apr 29; May 3, 4, 5, 6). -/
def HOLIDAYS_2025_APR_MAY : List Date := [19, 23, 24, 25, 26]

/-- `START_DATE_STR` = "2025-04-10", the epoch of the `Date` embedding. -/
def START_DATE : Date := 0

/-- `END_DATE_STR` = "2025-05-07", 27 days later. -/
def END_DATE : Date := 27

/-- `generate_date_range` after the parse step (string parsing is the
external date library): the closed range of days, with its length. -/
def generate_date_range (s e : Date) : Option (List Date × Nat) :=
  if s > e then none
  else
    let ds := (List.range (e - s + 1).toNat).map fun i => s + (i : Int)
    some (ds, ds.length)

/-- `facility_staffing_rules` of `main`, in insertion order. -/
def facility_staffing_rules : List (String × List (String × StaffingRule)) :=
  [("1F", [("早出", ⟨some 2, "hard", 0, 0⟩),
           ("日勤", ⟨some 4, "hard", 0, 0⟩),
           ("夜勤", ⟨some 2, "hard", 0, 0⟩),
           ("明勤", ⟨some 1, "soft", 10, 1⟩)])]

/-- The horizon `main` schedules (28 days from 2025-04-10 to 2025-05-07). -/
def main_dates : List Date :=
  ((generate_date_range START_DATE END_DATE).getD ([], 0)).1

/-- Stage 1 of `main`: the base model over the loaded roster. -/
def mainM0 (emps : List Employee) : CpModel :=
  build_shift_assignment_model emps.length main_dates.length SHIFTS.length

/-- Stage 2: facility staffing rules. -/
def mainStaffing (emps : List Employee) : CpModel × List PenaltyTerm :=
  add_staffing_constraints (mainM0 emps) emps main_dates SHIFTS
    facility_staffing_rules

/-- Stage 3: minimum holidays for 常勤 (soft, minimum 8, weight 10); the
常勤/パート column is guaranteed by `load_employee_data`. -/
def mainMinHol (emps : List Employee) : CpModel × List PenaltyTerm :=
  add_min_holidays_constraint (mainStaffing emps).1 emps main_dates SHIFTS
    ⟨some 8, "常勤", "soft", 10⟩

/-- Stage 4: max 4 consecutive workdays (soft, weight 10). -/
def mainConsec (emps : List Employee) : CpModel × List PenaltyTerm :=
  add_max_consecutive_workdays_constraint (mainMinHol emps).1 emps.length
    main_dates SHIFTS ⟨some 4, ["日勤", "早出", "夜勤", "明勤"], "soft", 10⟩

/-- Stage 5: 夜勤 → 明勤 on the next day (soft, weight 20). -/
def mainSeq (emps : List Employee) : CpModel × List PenaltyTerm :=
  add_sequential_shift_constraint (mainConsec emps).1 emps.length main_dates
    SHIFTS ⟨some "夜勤", some "明勤", "soft", 20⟩

/-- Stage 6: balance 公休 across 常勤 (soft, weight 1). -/
def mainBal1 (emps : List Employee) : CpModel × List PenaltyTerm :=
  add_assignment_balance_constraint (mainSeq emps).1 emps main_dates SHIFTS
    ⟨some "常勤", some "公休", "soft", 1, some 1⟩

/-- Stage 7: balance 夜勤 across 常勤 (soft, weight 2). -/
def mainBal2 (emps : List Employee) : CpModel × List PenaltyTerm :=
  add_assignment_balance_constraint (mainBal1 emps).1 emps main_dates SHIFTS
    ⟨some "常勤", some "夜勤", "soft", 2, some 1⟩

/-- Stage 8: the three individual shift requests of `main` (`iloc[0]`,
`iloc[1]` of the roster). -/
def mainRequests (emps : List Employee) (parseDate : String → Option Date) :
    CpModel × List PenaltyTerm :=
  add_shift_request_constraint (mainBal2 emps).1 emps main_dates SHIFTS
    parseDate
    [⟨some ((emps.map fun r => r.id).getD 0 ""), some "2025-04-15",
      some "公休", 30, "soft"⟩,
     ⟨some ((emps.map fun r => r.id).getD 1 ""), some "2025-04-15",
      some "公休", 0, "hard"⟩,
     ⟨some ((emps.map fun r => r.id).getD 0 ""), some "2025-05-01",
      some "夜勤", 10, "soft"⟩]

/-- Stage 9: the first two employees never share 日勤 or 夜勤 (hard). -/
def mainAvoid (emps : List Employee) (parseDate : String → Option Date) :
    CpModel × List PenaltyTerm :=
  add_avoid_same_shift_constraint (mainRequests emps parseDate).1 emps
    main_dates SHIFTS
    [⟨[(emps.map fun r => r.id).getD 0 "", (emps.map fun r => r.id).getD 1 ""],
      ["日勤", "夜勤"], "hard"⟩]

/-- Stage 10: exactly 17 workdays for the 17th employee, when present. -/
def mainWorkdays (emps : List Employee) (parseDate : String → Option Date) :
    CpModel × List PenaltyTerm :=
  if 16 < emps.length then
    add_total_workdays_constraint (mainAvoid emps parseDate).1 emps main_dates
      SHIFTS [⟨some ((emps.map fun r => r.id).getD 16 ""), some "exact",
        some 17, 0⟩]
  else ((mainAvoid emps parseDate).1, [])

/-- The weekend/holiday target ids of `main`: "A001", "A002", and the
17th employee when present, restricted to ids actually on the roster. -/
def mainWeekendTargets (emps : List Employee) : List String :=
  (["A001", "A002"] ++
    (if 16 < emps.length then [(emps.map fun r => r.id).getD 16 ""] else [])).filter
    fun i => (emps.map fun r => r.id).contains i

/-- Stage 11: weekend/holiday rest for the targeted employees (soft,
weight 10); skipped when no target id is on the roster. -/
def mainWeekend (emps : List Employee) (parseDate : String → Option Date) :
    CpModel × List PenaltyTerm :=
  if (mainWeekendTargets emps).isEmpty then ((mainWorkdays emps parseDate).1, [])
  else add_weekend_holiday_constraint (mainWorkdays emps parseDate).1
    (emps.map fun r => r.id) main_dates SHIFTS HOLIDAYS_2025_APR_MAY
    (some (mainWeekendTargets emps)) "soft" 10

/-- Stage 12: status-based forced leave (育休 / 病休 → 公休), when the
ステータス column exists. -/
def mainStatusStage (emps : List Employee) (has_status_col : Bool)
    (parseDate : String → Option Date) : CpModel :=
  if has_status_col then
    add_employee_status_constraint (mainWeekend emps parseDate).1 emps
      has_status_col main_dates SHIFTS ["育休", "病休"] "公休"
  else (mainWeekend emps parseDate).1

/-- `all_penalty_terms` of `main`: every family's terms, in the order the
stages run and extend the list. -/
def main_penalties (emps : List Employee) (parseDate : String → Option Date) :
    List PenaltyTerm :=
  (mainStaffing emps).2 ++ (mainMinHol emps).2 ++ (mainConsec emps).2 ++
    (mainSeq emps).2 ++ (mainBal1 emps).2 ++ (mainBal2 emps).2 ++
    (mainRequests emps parseDate).2 ++ (mainAvoid emps parseDate).2 ++
    (mainWorkdays emps parseDate).2 ++ (mainWeekend emps parseDate).2

/-- The model assembly of `main` (everything between
`build_shift_assignment_model` and `solve_and_get_results`): the final
model with its objective, and the collected penalty terms.  `Minimize`
is called exactly when the collected sequence is non-empty. -/
def main_model (emps : List Employee) (has_status_col : Bool)
    (parseDate : String → Option Date) : CpModel × List PenaltyTerm :=
  let all := main_penalties emps parseDate
  if all.isEmpty then (mainStatusStage emps has_status_col parseDate, all)
  else ({ mainStatusStage emps has_status_col parseDate with
    objective := some all }, all)

/- ### No rule compiler touches the objective -/

theorem foldl_fst_objective {α : Type}
    (step : CpModel × List PenaltyTerm → α → CpModel × List PenaltyTerm)
    (hstep : ∀ acc x, ((step acc x).1).objective = acc.1.objective)
    (l : List α) (acc : CpModel × List PenaltyTerm) :
    ((l.foldl step acc).1).objective = acc.1.objective := by
  induction l generalizing acc with
  | nil => rfl
  | cons a t ih => rw [List.foldl_cons, ih, hstep]

theorem add_staffing_objective (m : CpModel) (emps : List Employee)
    (dates : List Date) (shifts : List String)
    (rules : List (String × List (String × StaffingRule))) :
    (add_staffing_constraints m emps dates shifts rules).1.objective =
      m.objective := by
  unfold add_staffing_constraints
  apply foldl_fst_objective
  intro acc d
  apply foldl_fst_objective
  intro acc2 fr
  dsimp only
  split
  · rfl
  · apply foldl_fst_objective
    intro acc3 sr
    dsimp only
    repeat' split
    all_goals simp [CpModel.addC, CpModel.newVar]

theorem add_min_holidays_objective (m : CpModel) (emps : List Employee)
    (dates : List Date) (shifts : List String) (rule : MinHolidaysRule) :
    (add_min_holidays_constraint m emps dates shifts rule).1.objective =
      m.objective := by
  unfold add_min_holidays_constraint
  repeat' split
  all_goals try rfl
  all_goals
    apply foldl_fst_objective
    intro acc p
    dsimp only
    repeat' split
    all_goals simp [CpModel.addC, CpModel.newVar]

theorem add_max_consecutive_objective (m : CpModel) (E : Nat)
    (dates : List Date) (shifts : List String) (rule : MaxConsecutiveRule) :
    (add_max_consecutive_workdays_constraint m E dates shifts rule).1.objective
      = m.objective := by
  unfold add_max_consecutive_workdays_constraint
  dsimp only
  repeat' split
  all_goals rfl

theorem add_sequential_objective (m : CpModel) (E : Nat) (dates : List Date)
    (shifts : List String) (rule : SequentialRule) :
    (add_sequential_shift_constraint m E dates shifts rule).1.objective =
      m.objective := by
  unfold add_sequential_shift_constraint
  dsimp only
  repeat' split
  all_goals rfl

theorem add_balance_objective (m : CpModel) (emps : List Employee)
    (dates : List Date) (shifts : List String) (rule : BalanceRule) :
    (add_assignment_balance_constraint m emps dates shifts rule).1.objective =
      m.objective := by
  unfold add_assignment_balance_constraint
  dsimp only
  repeat' split
  all_goals simp [CpModel.addC]

theorem add_shift_request_objective (m : CpModel) (emps : List Employee)
    (dates : List Date) (shifts : List String)
    (pd : String → Option Date) (reqs : List ShiftRequest) :
    (add_shift_request_constraint m emps dates shifts pd reqs).1.objective =
      m.objective := by
  unfold add_shift_request_constraint
  apply foldl_fst_objective
  intro acc req
  unfold shiftRequestStep
  dsimp only
  repeat' split
  all_goals simp [CpModel.addC, CpModel.newVar]

theorem add_avoid_objective (m : CpModel) (emps : List Employee)
    (dates : List Date) (shifts : List String) (rules : List AvoidRule) :
    (add_avoid_same_shift_constraint m emps dates shifts rules).1.objective =
      m.objective := by
  unfold add_avoid_same_shift_constraint
  apply foldl_fst_objective
  intro acc rule
  unfold avoidRuleStep
  dsimp only
  repeat' split
  all_goals rfl

theorem add_total_workdays_objective (m : CpModel) (emps : List Employee)
    (dates : List Date) (shifts : List String)
    (rules : List TotalWorkdaysRule) :
    (add_total_workdays_constraint m emps dates shifts rules).1.objective =
      m.objective := by
  unfold add_total_workdays_constraint
  dsimp only
  split
  · rfl
  · apply foldl_fst_objective
    intro acc rule
    unfold totalWorkdaysStep
    dsimp only
    repeat' split
    all_goals try rfl

theorem add_weekend_holiday_objective (m : CpModel)
    (master : List String) (dates : List Date) (shifts : List String)
    (holidays : List Date) (targets : Option (List String))
    (ct : String) (pw : Int) :
    (add_weekend_holiday_constraint m master dates shifts holidays targets
      ct pw).1.objective = m.objective := by
  unfold add_weekend_holiday_constraint
  dsimp only
  repeat' split
  all_goals try rfl
  all_goals
    apply foldl_fst_objective
    intro acc p
    dsimp only
    split
    · apply foldl_fst_objective
      intro acc2 e
      simp [CpModel.addC, CpModel.newVar]
    · rfl

theorem add_status_objective (m : CpModel) (emps : List Employee)
    (hs : Bool) (dates : List Date) (shifts : List String)
    (statusSet : List String) (leaveName : String) :
    (add_employee_status_constraint m emps hs dates shifts statusSet
      leaveName).objective = m.objective := by
  unfold add_employee_status_constraint
  repeat' split
  all_goals rfl

/-- No stage of `main` before the final `Minimize` sets an objective. -/
theorem mainStatusStage_objective (emps : List Employee) (hs : Bool)
    (pd : String → Option Date) :
    (mainStatusStage emps hs pd).objective = none := by
  have o1 : (mainStaffing emps).1.objective = none := by
    unfold mainStaffing
    rw [add_staffing_objective]
    rfl
  have o2 : (mainMinHol emps).1.objective = none := by
    unfold mainMinHol
    rw [add_min_holidays_objective]
    exact o1
  have o3 : (mainConsec emps).1.objective = none := by
    unfold mainConsec
    rw [add_max_consecutive_objective]
    exact o2
  have o4 : (mainSeq emps).1.objective = none := by
    unfold mainSeq
    rw [add_sequential_objective]
    exact o3
  have o5 : (mainBal1 emps).1.objective = none := by
    unfold mainBal1
    rw [add_balance_objective]
    exact o4
  have o6 : (mainBal2 emps).1.objective = none := by
    unfold mainBal2
    rw [add_balance_objective]
    exact o5
  have o7 : (mainRequests emps pd).1.objective = none := by
    unfold mainRequests
    rw [add_shift_request_objective]
    exact o6
  have hbase : (mainAvoid emps pd).1.objective = none := by
    unfold mainAvoid
    rw [add_avoid_objective]
    exact o7
  have h9 : (mainWorkdays emps pd).1.objective = none := by
    unfold mainWorkdays
    split
    · rw [add_total_workdays_objective]
      exact hbase
    · exact hbase
  have h10 : (mainWeekend emps pd).1.objective = none := by
    unfold mainWeekend
    split
    · exact h9
    · rw [add_weekend_holiday_objective]
      exact h9
  unfold mainStatusStage
  split
  · rw [add_status_objective]
    exact h10
  · exact h10

/-- Claim C9.  The penalty terms of all invoked rule compilers,
regardless of family, are collected into one sequence in stage order
(first conjunct); when that sequence is empty no objective is set on the
model (second conjunct); when it is non-empty the objective is exactly
the collected sequence, minimized as the weighted sum of its terms
(third and fourth conjuncts); and the choice of objective never changes
the model's constraints or variables — an empty sequence leaves a pure
feasibility problem (last two conjuncts).  The roster hypothesis matches
`main`'s use of the first two employees in its request and avoid rules. -/
theorem penalty_aggregation (emps : List Employee) (has_status_col : Bool)
    (parseDate : String → Option Date) (_hroster : 2 ≤ emps.length) :
    (main_model emps has_status_col parseDate).2 =
      (mainStaffing emps).2 ++ (mainMinHol emps).2 ++ (mainConsec emps).2 ++
      (mainSeq emps).2 ++ (mainBal1 emps).2 ++ (mainBal2 emps).2 ++
      (mainRequests emps parseDate).2 ++ (mainAvoid emps parseDate).2 ++
      (mainWorkdays emps parseDate).2 ++ (mainWeekend emps parseDate).2 ∧
    ((main_model emps has_status_col parseDate).2 = [] →
      (main_model emps has_status_col parseDate).1.objective = none) ∧
    ((main_model emps has_status_col parseDate).2 ≠ [] →
      (main_model emps has_status_col parseDate).1.objective =
        some (main_model emps has_status_col parseDate).2) ∧
    ((main_model emps has_status_col parseDate).2 ≠ [] → ∀ σ : Nat → Int,
      (main_model emps has_status_col parseDate).1.objEval σ =
        (((main_model emps has_status_col parseDate).2).map
          fun t => t.2 * σ t.1).sum) ∧
    (main_model emps has_status_col parseDate).1.constrs =
      (mainStatusStage emps has_status_col parseDate).constrs ∧
    (main_model emps has_status_col parseDate).1.decls =
      (mainStatusStage emps has_status_col parseDate).decls := by
  by_cases hie : (main_penalties emps parseDate).isEmpty = true
  · have hm : main_model emps has_status_col parseDate =
        (mainStatusStage emps has_status_col parseDate,
          main_penalties emps parseDate) := by
      unfold main_model
      dsimp only
      rw [if_pos hie]
    rw [hm]
    have hnil : main_penalties emps parseDate = [] := List.isEmpty_iff.1 hie
    exact ⟨rfl, fun _ => mainStatusStage_objective emps has_status_col parseDate,
      fun hne => absurd hnil hne, fun hne => absurd hnil hne, rfl, rfl⟩
  · have hm : main_model emps has_status_col parseDate =
        ({ mainStatusStage emps has_status_col parseDate with
          objective := some (main_penalties emps parseDate) },
          main_penalties emps parseDate) := by
      unfold main_model
      dsimp only
      rw [if_neg hie]
    rw [hm]
    exact ⟨rfl, fun h => absurd (List.isEmpty_iff.2 h) hie,
      fun _ => rfl, fun _ _ => rfl, rfl, rfl⟩

/-- A two-employee roster for the C9 witness. -/
def empsW : List Employee :=
  [⟨"A001", "甲", "1F", "常勤", none⟩, ⟨"A002", "乙", "1F", "常勤", none⟩]

/-- Witness for C9 on a concrete two-employee roster. -/
theorem penalty_aggregation_witness :
    (main_model empsW false (fun _ => none)).2 =
      (mainStaffing empsW).2 ++ (mainMinHol empsW).2 ++
      (mainConsec empsW).2 ++ (mainSeq empsW).2 ++ (mainBal1 empsW).2 ++
      (mainBal2 empsW).2 ++ (mainRequests empsW (fun _ => none)).2 ++
      (mainAvoid empsW (fun _ => none)).2 ++
      (mainWorkdays empsW (fun _ => none)).2 ++
      (mainWeekend empsW (fun _ => none)).2 :=
  (penalty_aggregation empsW false (fun _ => none) (by decide)).1

end ShiftGen
